import Mathlib

/-!
duMalloc: a first-fit free-list allocator over a fixed 1024-byte arena.

A shallow embedding of `src/duMalloc.c`.

The arena is viewed through its block headers: `State.heap a` is the
`memoryBlockHeader` object that the C code reads and writes through a pointer
`(memoryBlockHeader*)(heap + a)`.  Pointers are arena offsets (`Int`), with
`none` for `NULL`.  The `int` fields and the `int`/`size_t` arithmetic of the
source are integers with the conversions written out (`toInt` wraps to 32 bits
two's complement, `toULong` reduces modulo `2 ^ 64`).  The `while` loops walk a
list that may be cyclic, so they take a fuel argument and return `none` when the
fuel runs out before the loop exits.

Every offset has a header record of its own in `State`.  This is what the C code
does as long as the headers it touches lie inside the arena and share no byte, that
is, are equal or at least `sizeof(memoryBlockHeader)` apart: the states reached from
`duInitMalloc` and the states that satisfy `Layout` are of that kind.  Where two
header views do share bytes the code is run on `WordState`, the arena laid out in
8-byte words.
-/

namespace DuMalloc

/-- A pointer to a header in the arena: `none` is `NULL`, `some a` is `heap + a`. -/
abbrev Ptr := Option Int

/-- The header record of the source: `int size; struct memoryBlockHeader* next;`. -/
structure memoryBlockHeader where
  size : Int
  next : Ptr

/-- The two globals of the source: the arena (seen through headers) and `freeListHead`.
Each offset has its own header record: the state describes the memory of the C program
for headers that are equal or share no byte. -/
structure State where
  heap : Int → memoryBlockHeader
  freeListHead : Ptr

/-- The source constant `HEAP_SIZE (128 * 8)`. -/
def HEAP_SIZE : Int := 128 * 8

/-- The value of `sizeof(memoryBlockHeader)` on the 64-bit target (an `unsigned long`). -/
def sizeofHeader : Int := 16

/-- Conversion to `int`: reduction to the 32-bit two's complement range. -/
def toInt (x : Int) : Int := (x + 2147483648) % 4294967296 - 2147483648

/-- Conversion to `unsigned long`: reduction modulo `2 ^ 64`. -/
def toULong (x : Int) : Int := x % 18446744073709551616

/-- The store `((memoryBlockHeader*)(heap + a))->size = v`, as seen by the headers that
are equal to the one at `a` or share no byte with it. -/
def setSize (s : State) (a v : Int) : State :=
  { s with heap := fun b => if b = a then { size := v, next := (s.heap b).next } else s.heap b }

/-- The store `((memoryBlockHeader*)(heap + a))->next = p`, as seen by the headers that
are equal to the one at `a` or share no byte with it. -/
def setNext (s : State) (a : Int) (p : Ptr) : State :=
  { s with heap := fun b => if b = a then { size := (s.heap b).size, next := p } else s.heap b }

/-- The store `freeListHead = p`. -/
def setHead (s : State) (p : Ptr) : State :=
  { s with freeListHead := p }

/-- The state of the globals at program start: zeroed static storage. -/
def bootState : State :=
  { heap := fun _ => { size := 0, next := none }, freeListHead := none }

/-- Source `duInitMalloc`: `memset` the arena to zero (every header view then reads
size 0 and next `NULL`), write the header of the single free block at offset 0 and
make it the head of the free list. -/
def duInitMalloc (s : State) : State :=
  let s0 : State := { heap := fun _ => { size := 0, next := none }, freeListHead := s.freeListHead }
  let currentBlock : Int := 0
  let s1 := setSize s0 currentBlock (toInt (toULong (toULong HEAP_SIZE - sizeofHeader)))
  let s2 := setNext s1 currentBlock none
  setHead s2 (some currentBlock)

/-- The loop of `duMemoryDump`: one line (offset, size) per node met while following
`next` from `current`. -/
def dumpLoop : Nat → State → Ptr → Option (List (Int × Int))
  | 0, _, _ => none
  | _ + 1, _, none => some []
  | fuel + 1, s, some current =>
    match dumpLoop fuel s (s.heap current).next with
    | none => none
    | some rest => some ((current, (s.heap current).size) :: rest)

/-- Source `duMemoryDump`: the lines printed after the two title lines. -/
def duMemoryDump (fuel : Nat) (s : State) : Option (List (Int × Int)) :=
  dumpLoop fuel s s.freeListHead

/-- Source line 52: `size = (size + 7) & ~7`.  Clearing the three low bits of a
two's complement `int` subtracts its residue modulo 8. -/
def roundUp8 (size : Int) : Int :=
  let t := toInt (size + 7)
  t - t % 8

/-- Source lines 52 and 55: the value of `size` after
`size += sizeof(memoryBlockHeader)` (computed in `unsigned long`, stored in `int`). -/
def neededBytes (size : Int) : Int :=
  toInt (toULong (toULong (roundUp8 size) + sizeofHeader))

/-- Source lines 64 to 80: the body of the split branch, for a new header that lies
inside the arena and shares no byte with the headers of the free list. -/
def splitBlock (s : State) (current : Int) (prev : Ptr) (size : Int) : State :=
  let newFreeBlock : Int := current + size
  let s1 := setSize s newFreeBlock (toInt ((s.heap current).size - size))
  let s2 := setNext s1 newFreeBlock (s1.heap current).next
  let s3 := setSize s2 current (toInt (toULong (toULong size - sizeofHeader)))
  let s4 := setNext s3 current (some newFreeBlock)
  match prev with
  | none => setHead s4 (s4.heap current).next
  | some p => setNext s4 p (s4.heap current).next

/-- Source lines 61 to 91: the search loop of `duMalloc`, `size` being the needed
bytes.  The result is the state and the returned pointer. -/
def mallocLoop (size : Int) : Nat → State → Ptr → Ptr → Option (State × Ptr)
  | 0, _, _, _ => none
  | _ + 1, s, none, _ => some (s, none)
  | fuel + 1, s, some current, prev =>
    if size ≤ (s.heap current).size then
      if toULong (toULong size + sizeofHeader) < toULong (s.heap current).size then
        some (splitBlock s current prev size, some (current + sizeofHeader))
      else
        some (s, some (current + sizeofHeader))
    else
      mallocLoop size fuel s (s.heap current).next (some current)

/-- Source `duMalloc`. -/
def duMalloc (fuel : Nat) (s : State) (size : Int) : Option (State × Ptr) :=
  mallocLoop (neededBytes size) fuel s s.freeListHead none

/-- Source lines 104 to 107: the search loop of `duFree`; the result is the pair
`(current, prev)` at loop exit. -/
def freeLoop (blockToFree : Int) : Nat → State → Ptr → Ptr → Option (Ptr × Ptr)
  | 0, _, _, _ => none
  | _ + 1, _, none, prev => some (none, prev)
  | fuel + 1, s, some current, prev =>
    if current < blockToFree then
      freeLoop blockToFree fuel s (s.heap current).next (some current)
    else
      some (some current, prev)

/-- Source `duFree`, for a pointer `heap + ptr`. -/
def duFree (fuel : Nat) (s : State) (ptr : Int) : Option State :=
  let blockToFree : Int := ptr - sizeofHeader
  match freeLoop blockToFree fuel s s.freeListHead none with
  | none => none
  | some (current, prev) =>
    let s1 := setNext s blockToFree current
    match prev with
    | none => some (setHead s1 (some blockToFree))
    | some p => some (setNext s1 p (some blockToFree))

/-- A caller that issues `k` consecutive `duMalloc(n)` calls and collects the
returned pointers in call order. -/
def mallocs (fuel : Nat) (n : Int) : Nat → State → Option (State × List Ptr)
  | 0, s => some (s, [])
  | k + 1, s =>
    match duMalloc fuel s n with
    | none => none
    | some (s1, p) =>
      match mallocs fuel n k s1 with
      | none => none
      | some (s2, ps) => some (s2, p :: ps)

/-! ## Vocabulary of the properties -/

/-- Following `next` from `p` through exactly the nodes of `L` arrives at `q`. -/
def isSeg (s : State) : Ptr → List Int → Ptr → Prop
  | p, [], q => p = q
  | p, a :: L, q => p = some a ∧ isSeg s (s.heap a).next L q

/-- The list walked from `p` is finite: its nodes are `L`, and the last `next` is `NULL`. -/
def isList (s : State) (p : Ptr) (L : List Int) : Prop := isSeg s p L none

/-- A node reachable from `freeListHead` by following `next`. -/
inductive FreeNode (s : State) : Int → Prop
  | head {a : Int} : s.freeListHead = some a → FreeNode s a
  | step {a b : Int} : FreeNode s a → (s.heap a).next = some b → FreeNode s b

/-- The value of `prev` after the loop has walked over `L`, starting with `prev`. -/
def lastPtr : Ptr → List Int → Ptr
  | prev, [] => prev
  | _, a :: L => lastPtr (some a) L

/-- Strictly ascending addresses along the list. -/
def Ascending (L : List Int) : Prop := L.Chain' (fun a b => a < b)

/-- Every node's footprint `[a, a + H + size)` ends at or before the next node. -/
def FootprintsApart (s : State) (L : List Int) : Prop :=
  L.Chain' (fun a b => a + sizeofHeader + (s.heap a).size ≤ b)

/-- The size fields of the listed nodes hold values of a C `int`. -/
def IntSizes (s : State) (L : List Int) : Prop :=
  ∀ a ∈ L, -2147483648 ≤ (s.heap a).size ∧ (s.heap a).size ≤ 2147483647

/-- Total free capacity: the sum of the size fields of the nodes the dump walks. -/
def freeCapacity (fuel : Nat) (s : State) : Option Int :=
  match duMemoryDump fuel s with
  | none => none
  | some lines => some (lines.map Prod.snd).sum

/-- Two payload ranges `[p, p + roundUp8 n)` and `[q, q + roundUp8 m)` do not meet. -/
def rangesDisjoint (p n q m : Int) : Prop :=
  p + roundUp8 n ≤ q ∨ q + roundUp8 m ≤ p

/-- States reached from `duInitMalloc` by `duMalloc` calls with a request in `[lo, hi]`
and `duFree` calls on pointers that `duMalloc` returned; the list holds every pointer
returned so far. -/
inductive Reach (lo hi : Int) : State → List Int → Prop
  | init (s0 : State) : Reach lo hi (duInitMalloc s0) []
  | mallocNull {s s1 : State} {R : List Int} (fuel : Nat) (n : Int) :
      Reach lo hi s R → lo ≤ n → n ≤ hi → duMalloc fuel s n = some (s1, none) →
      Reach lo hi s1 R
  | malloc {s s1 : State} {R : List Int} (fuel : Nat) (n p : Int) :
      Reach lo hi s R → lo ≤ n → n ≤ hi → duMalloc fuel s n = some (s1, some p) →
      Reach lo hi s1 (p :: R)
  | free {s s1 : State} {R : List Int} (fuel : Nat) (p : Int) :
      Reach lo hi s R → p ∈ R → duFree fuel s p = some s1 →
      Reach lo hi s1 R

/-- A pointer that is `NULL` or whose arena offset is a multiple of 8. -/
def PtrAligned (p : Ptr) : Prop := ∀ a, p = some a → a % 8 = 0

/-- The head of the free list and every stored `next` pointer are 8-aligned. -/
def Aligned (s : State) : Prop :=
  PtrAligned s.freeListHead ∧ ∀ a, PtrAligned (s.heap a).next

/-- The state `duFree` leaves when its loop stops between `pre` and `post`. -/
def freeResult (s : State) (pre post : List Int) (b : Int) : State :=
  match lastPtr none pre with
  | none => setHead (setNext s b post.head?) (some b)
  | some p => setNext (setNext s b post.head?) p (some b)

/-- A state with a finite, ascending free list `0 -> 24` whose two blocks overlap: the
block at offset 0 has size 1008 and so covers the block at offset 24. -/
def overlapState : State :=
  { heap := fun a =>
      if a = 0 then { size := 1008, next := some 24 }
      else if a = 24 then { size := 100, next := none }
      else { size := 0, next := none },
    freeListHead := some 0 }

/-- Sum over the free-list nodes of `H + size`, the bytes their footprints cover. -/
def freeFootprint (fuel : Nat) (s : State) : Option Int :=
  match duMemoryDump fuel s with
  | none => none
  | some lines => some (lines.map (fun l => sizeofHeader + l.2)).sum

/-- Every node's footprint `[a, a + H + size)`, a header followed by `size ≥ 0` payload
bytes, lies inside the arena `[0, HEAP_SIZE)`. -/
def InArena (s : State) (L : List Int) : Prop :=
  ∀ a ∈ L, 0 ≤ a ∧ 0 ≤ (s.heap a).size ∧ a + sizeofHeader + (s.heap a).size ≤ HEAP_SIZE

/-- The layout invariant: the free list is the finite list `L`, strictly ascending,
with footprints that end at or before the next node and lie inside the arena.  On such
a state the headers of the free list are at least one header apart, so no store to one
of them touches a byte of another. -/
def Layout (s : State) (L : List Int) : Prop :=
  isList s s.freeListHead L ∧ Ascending L ∧ FootprintsApart s L ∧ InArena s L

/-- A pointer that is `NULL` or points to a header with a positive size field. -/
def PtrPositive (s : State) (p : Ptr) : Prop := ∀ a, p = some a → 0 < (s.heap a).size

/-- Every size field is a non-negative C `int`, and the head of the free list and every
stored `next` pointer lead to a header with a positive size field. -/
def Positive (s : State) : Prop :=
  (∀ a, 0 ≤ (s.heap a).size ∧ (s.heap a).size ≤ 2147483647) ∧
  PtrPositive s s.freeListHead ∧ ∀ a, PtrPositive s (s.heap a).next

/-- The 16 bytes of a header at offset `a` lie inside the arena. -/
def HeaderInArena (a : Int) : Prop := 0 ≤ a ∧ a + sizeofHeader ≤ HEAP_SIZE

/-- The headers at offsets `a` and `b` share no byte. -/
def HeadersApart (a b : Int) : Prop := a + sizeofHeader ≤ b ∨ b + sizeofHeader ≤ a

/-! ## The arena word by word

The header-granular `State` gives every offset a record of its own.  That is what the C
code sees as long as the headers it touches share no byte.  The definitions below lay
the arena out as the 64-bit little-endian target does, for 8-byte aligned accesses, to
run the code where two header views do share bytes. -/

/-- The arena in 8-byte words: `word a` is the unsigned value of the bytes at offsets
`[a, a + 8)`, for `a` a multiple of 8; `freeListHead` is an address, 0 for `NULL`.  The
header at offset `a` keeps `size` in the low four bytes of `word a` (the high four are
padding) and `next` in `word (a + 8)`, so the `next` field of the header view at `a`
and the `size` field of the header view at `a + 8` are the same bytes. -/
structure WordState where
  word : Int → Int
  freeListHead : Int

/-- The load of `size` from the header at offset `a`: the low 32 bits, as an `int`. -/
def readSize (w : WordState) (a : Int) : Int := toInt (w.word a)

/-- The load of `next` from the header at offset `a`. -/
def readNext (w : WordState) (a : Int) : Int := w.word (a + 8)

/-- The store of `size` into the header at offset `a`: the low 32 bits of the word. -/
def writeSize (w : WordState) (a v : Int) : WordState :=
  { w with word := fun b =>
      if b = a then w.word b - w.word b % 4294967296 + v % 4294967296 else w.word b }

/-- The store of `next` into the header at offset `a`: the whole word at `a + 8`. -/
def writeNext (w : WordState) (a p : Int) : WordState :=
  { w with word := fun b => if b = a + 8 then toULong p else w.word b }

/-- The address `x` is that of a header inside the arena placed at address `base`, at an
offset that is a multiple of 8. -/
def headerAt (base x : Int) : Bool :=
  decide (base ≤ x ∧ x + 16 ≤ base + 1024 ∧ (x - base) % 8 = 0)

/-- Zeroed static storage, word by word. -/
def bootWords : WordState := { word := fun _ => 0, freeListHead := 0 }

/-- Source `duInitMalloc` on the words of the arena placed at address `base`. -/
def duInitMallocWords (base : Int) (w : WordState) : WordState :=
  let w0 : WordState := { word := fun _ => 0, freeListHead := w.freeListHead }
  let w1 := writeSize w0 0 (toInt (toULong (toULong HEAP_SIZE - sizeofHeader)))
  let w2 := writeNext w1 0 0
  { w2 with freeListHead := base }

/-- The search loop of `duFree` on the words of the arena; addresses are compared as
the source compares them.  The result is `none` when the fuel runs out or when the loop
reads through an address that is not a header address of the arena. -/
def freeLoopWords (base blockToFree : Int) : Nat → WordState → Int → Int → Option (Int × Int)
  | 0, _, _, _ => none
  | fuel + 1, w, current, prev =>
    if current ≠ 0 ∧ current < blockToFree then
      if headerAt base current then
        freeLoopWords base blockToFree fuel w (readNext w (current - base)) current
      else none
    else some (current, prev)

/-- Source `duFree` on the words of the arena placed at address `base`, for the pointer
with address `ptr`. -/
def duFreeWords (base : Int) (fuel : Nat) (w : WordState) (ptr : Int) : Option WordState :=
  let blockToFree : Int := ptr - 16
  match freeLoopWords base blockToFree fuel w w.freeListHead 0 with
  | none => none
  | some (current, prev) =>
    if headerAt base blockToFree then
      let w1 := writeNext w (blockToFree - base) current
      if prev = 0 then some { w1 with freeListHead := blockToFree }
      else if headerAt base prev then some (writeNext w1 (prev - base) blockToFree)
      else none
    else none

/-! ## Reading the stores back -/

@[simp] theorem setSize_size (s : State) (a v b : Int) :
    ((setSize s a v).heap b).size = if b = a then v else (s.heap b).size := by
  unfold setSize; by_cases h : b = a <;> simp [h]

@[simp] theorem setSize_next (s : State) (a v b : Int) :
    ((setSize s a v).heap b).next = (s.heap b).next := by
  unfold setSize; by_cases h : b = a <;> simp [h]

@[simp] theorem setSize_head (s : State) (a v : Int) :
    (setSize s a v).freeListHead = s.freeListHead := rfl

@[simp] theorem setNext_size (s : State) (a : Int) (p : Ptr) (b : Int) :
    ((setNext s a p).heap b).size = (s.heap b).size := by
  unfold setNext; by_cases h : b = a <;> simp [h]

@[simp] theorem setNext_next (s : State) (a : Int) (p : Ptr) (b : Int) :
    ((setNext s a p).heap b).next = if b = a then p else (s.heap b).next := by
  unfold setNext; by_cases h : b = a <;> simp [h]

@[simp] theorem setNext_head (s : State) (a : Int) (p : Ptr) :
    (setNext s a p).freeListHead = s.freeListHead := rfl

@[simp] theorem setHead_heap (s : State) (p : Ptr) : (setHead s p).heap = s.heap := rfl

@[simp] theorem setHead_head (s : State) (p : Ptr) : (setHead s p).freeListHead = p := rfl

/-! ## The initial state -/

theorem init_head (s : State) : (duInitMalloc s).freeListHead = some 0 := rfl

theorem init_size (s : State) (a : Int) :
    ((duInitMalloc s).heap a).size = if a = 0 then 1008 else 0 := by
  simp [duInitMalloc, HEAP_SIZE, sizeofHeader, toInt, toULong]

theorem init_next (s : State) (a : Int) : ((duInitMalloc s).heap a).next = none := by
  simp [duInitMalloc]

theorem land_neg_one (m : Int) : Int.land m (-1) = m := by
  cases m with
  | ofNat k =>
    show Int.land (Int.ofNat k) (Int.negSucc 0) = _
    simp [Int.land, Nat.ldiff]
  | negSucc k =>
    show Int.land (Int.negSucc k) (Int.negSucc 0) = _
    simp [Int.land]

/-- The mask `& ~7` of the source is the subtraction of the residue modulo 8. -/
theorem land_not_seven (t : Int) : Int.land t (Int.lnot 7) = t - t % 8 := by
  have h0 := Int.bit_decomp t
  have h1 := Int.bit_decomp (Int.div2 t)
  have h2 := Int.bit_decomp (Int.div2 (Int.div2 t))
  have e : Int.lnot 7 = Int.bit false (Int.bit false (Int.bit false (-1))) := by
    simp [Int.bit_val, Int.lnot]
  have ht : t = Int.bit (Int.bodd t) (Int.bit (Int.bodd (Int.div2 t))
      (Int.bit (Int.bodd (Int.div2 (Int.div2 t))) (Int.div2 (Int.div2 (Int.div2 t))))) := by
    rw [h2, h1, h0]
  generalize Int.div2 (Int.div2 (Int.div2 t)) = m at ht
  generalize Int.bodd t = b0 at ht
  generalize Int.bodd (Int.div2 t) = b1 at ht
  generalize Int.bodd (Int.div2 (Int.div2 t)) = b2 at ht
  clear h0 h1 h2
  subst ht
  rw [e, Int.land_bit, Int.land_bit, Int.land_bit, land_neg_one]
  simp only [Int.bit_val, Bool.and_false]
  cases b0 <;> cases b1 <;> cases b2 <;> simp <;> omega

/-- The rounding of `duMalloc` is the expression of the source, `(size + 7) & ~7`. -/
theorem roundUp8_eq_land (size : Int) :
    roundUp8 size = Int.land (toInt (size + 7)) (Int.lnot 7) := by
  rw [land_not_seven]; rfl

/-! ## Walks that never end -/

theorem dumpLoop_self_loop (s : State) (a : Int) (h : (s.heap a).next = some a) :
    ∀ fuel, dumpLoop fuel s (some a) = none := by
  intro fuel
  induction fuel with
  | zero => rfl
  | succ k ih => simp [dumpLoop, h, ih]

theorem not_isSeg_self_loop (s : State) (a : Int) (h : (s.heap a).next = some a) :
    ∀ L, ¬ isSeg s (some a) L none := by
  intro L
  induction L with
  | nil => simp [isSeg]
  | cons b L ih =>
    intro hL
    obtain ⟨hb, hrest⟩ := hL
    have hab : a = b := Option.some.inj hb
    subst hab
    rw [h] at hrest
    exact ih hrest

/-! ## Segments and the loops that walk them -/

theorem isSeg_append (s : State) (L1 L2 : List Int) :
    ∀ p q : Ptr, isSeg s p (L1 ++ L2) q ↔ ∃ m, isSeg s p L1 m ∧ isSeg s m L2 q := by
  induction L1 with
  | nil =>
    intro p q
    simp [isSeg]
  | cons a L1 ih =>
    intro p q
    show (p = some a ∧ isSeg s (s.heap a).next (L1 ++ L2) q) ↔
      ∃ m, (p = some a ∧ isSeg s (s.heap a).next L1 m) ∧ isSeg s m L2 q
    rw [ih]
    constructor
    · rintro ⟨hp, m, h1, h2⟩
      exact ⟨m, ⟨hp, h1⟩, h2⟩
    · rintro ⟨m, ⟨hp, h1⟩, h2⟩
      exact ⟨hp, m, h1, h2⟩

theorem isSeg_congr (s s1 : State) (L : List Int) :
    ∀ p q : Ptr, (∀ a ∈ L, (s1.heap a).next = (s.heap a).next) →
      isSeg s p L q → isSeg s1 p L q := by
  induction L with
  | nil => intro p q _ h; exact h
  | cons a L ih =>
    intro p q hn h
    obtain ⟨hp, hrest⟩ := h
    refine ⟨hp, ?_⟩
    rw [hn a (List.mem_cons_self a L)]
    exact ih _ _ (fun b hb => hn b (List.mem_cons_of_mem a hb)) hrest

theorem isSeg_head (s : State) (L : List Int) (p : Ptr) (h : isSeg s p L none) :
    p = L.head? := by
  cases L with
  | nil => exact h
  | cons a L => exact h.1

theorem isSeg_unique (s : State) (L : List Int) :
    ∀ (M : List Int) (p : Ptr), isSeg s p L none → isSeg s p M none → L = M := by
  induction L with
  | nil =>
    intro M p h1 h2
    cases M with
    | nil => rfl
    | cons b M =>
      have h1 : p = none := h1
      rw [h1] at h2
      cases h2.1
  | cons a L ih =>
    intro M p h1 h2
    cases M with
    | nil =>
      have h2 : p = none := h2
      rw [h2] at h1
      cases h1.1
    | cons b M =>
      obtain ⟨ha, hL⟩ := h1
      obtain ⟨hb, hM⟩ := h2
      have hab : a = b := Option.some.inj (ha.symm.trans hb)
      subst hab
      rw [ih M _ hL hM]

theorem freeNode_of_isSeg (s : State) (L : List Int) :
    ∀ (p q : Ptr), (∀ a, p = some a → FreeNode s a) → isSeg s p L q →
      ∀ a ∈ L, FreeNode s a := by
  induction L with
  | nil => intro p q _ _ a ha; cases ha
  | cons b L ih =>
    intro p q hp h a ha
    obtain ⟨hb, hrest⟩ := h
    have hfb : FreeNode s b := hp b hb
    rcases List.mem_cons.mp ha with rfl | hmem
    · exact hfb
    · exact ih _ q (fun c hc => FreeNode.step hfb hc) hrest a hmem

theorem mem_of_freeNode (s : State) (L : List Int) (hL : isList s s.freeListHead L)
    (a : Int) (h : FreeNode s a) : a ∈ L := by
  have key : ∀ (M : List Int) (p : Ptr) (b : Int), isSeg s p M none → p = some b →
      b ∈ M ∧ ∃ M1, (∀ x ∈ M1, x ∈ M) ∧ isSeg s (s.heap b).next M1 none := by
    intro M p b hM hp
    cases M with
    | nil =>
      have hM : p = none := hM
      rw [hM] at hp
      cases hp
    | cons c M =>
      obtain ⟨hc, hrest⟩ := hM
      have hbc : b = c := Option.some.inj (hp.symm.trans hc)
      subst hbc
      exact ⟨List.mem_cons_self _ _, M, fun x hx => List.mem_cons_of_mem _ hx, hrest⟩
  have main : ∃ M, (∀ x ∈ M, x ∈ L) ∧ ∃ p, p = some a ∧ isSeg s p M none := by
    induction h with
    | head h0 => exact ⟨L, fun x hx => hx, _, h0, hL⟩
    | step _ h1 ih =>
      obtain ⟨M, hsub, p, hp, hM⟩ := ih
      obtain ⟨_, M1, hsub1, hM1⟩ := key M p _ hM hp
      exact ⟨M1, fun x hx => hsub x (hsub1 x hx), _, h1, hM1⟩
  obtain ⟨M, hsub, p, hp, hM⟩ := main
  exact hsub a (key M p a hM hp).1

theorem dumpLoop_of_isSeg (s : State) (L : List Int) :
    ∀ (p : Ptr) (fuel : Nat), isSeg s p L none → L.length < fuel →
      dumpLoop fuel s p = some (L.map (fun a => (a, (s.heap a).size))) := by
  induction L with
  | nil =>
    intro p fuel h hf
    have h : p = none := h
    subst h
    cases fuel with
    | zero => omega
    | succ k => rfl
  | cons a L ih =>
    intro p fuel h hf
    obtain ⟨hp, hrest⟩ := h
    subst hp
    cases fuel with
    | zero => omega
    | succ k =>
      have hk : L.length < k := by simpa using hf
      simp [dumpLoop, ih _ k hrest hk]

theorem freeCapacity_of_isList (s : State) (L : List Int) (fuel : Nat)
    (hL : isList s s.freeListHead L) (hf : L.length < fuel) :
    freeCapacity fuel s = some (L.map (fun a => (s.heap a).size)).sum := by
  unfold freeCapacity duMemoryDump
  rw [dumpLoop_of_isSeg s L _ fuel hL hf]
  simp [Function.comp_def]

theorem mallocLoop_skip (N : Int) (s : State) (pre : List Int) :
    ∀ (p q prev : Ptr) (fuel : Nat), isSeg s p pre q →
      (∀ a ∈ pre, (s.heap a).size < N) →
      mallocLoop N (fuel + pre.length) s p prev = mallocLoop N fuel s q (lastPtr prev pre) := by
  induction pre with
  | nil =>
    intro p q prev fuel h _
    have h : p = q := h
    subst h
    rfl
  | cons a pre ih =>
    intro p q prev fuel h hsmall
    obtain ⟨hp, hrest⟩ := h
    subst hp
    have ha : ¬ N ≤ (s.heap a).size := not_le.mpr (hsmall a (List.mem_cons_self a pre))
    show mallocLoop N ((fuel + pre.length) + 1) s (some a) prev = _
    simp only [mallocLoop, ha, if_false, lastPtr]
    exact ih _ q (some a) fuel hrest (fun b hb => hsmall b (List.mem_cons_of_mem a hb))

theorem freeLoop_skip (b : Int) (s : State) (pre : List Int) :
    ∀ (p q prev : Ptr) (fuel : Nat), isSeg s p pre q →
      (∀ a ∈ pre, a < b) →
      freeLoop b (fuel + pre.length) s p prev = freeLoop b fuel s q (lastPtr prev pre) := by
  induction pre with
  | nil =>
    intro p q prev fuel h _
    have h : p = q := h
    subst h
    rfl
  | cons a pre ih =>
    intro p q prev fuel h hsmall
    obtain ⟨hp, hrest⟩ := h
    subst hp
    have ha : a < b := hsmall a (List.mem_cons_self a pre)
    show freeLoop b ((fuel + pre.length) + 1) s (some a) prev = _
    simp only [freeLoop, ha, if_true, lastPtr]
    exact ih _ q (some a) fuel hrest (fun c hc => hsmall c (List.mem_cons_of_mem a hc))

theorem first_fit_split (s : State) (N : Int) (L : List Int) :
    (∀ a ∈ L, (s.heap a).size < N) ∨
    ∃ pre c post, L = pre ++ c :: post ∧ (∀ a ∈ pre, (s.heap a).size < N) ∧
      N ≤ (s.heap c).size := by
  induction L with
  | nil => left; intro a ha; cases ha
  | cons b L ih =>
    by_cases hb : N ≤ (s.heap b).size
    · right
      exact ⟨[], b, L, rfl, (by intro a ha; cases ha), hb⟩
    · rcases ih with hall | ⟨pre, c, post, hL, hpre, hc⟩
      · left
        intro a ha
        rcases List.mem_cons.mp ha with rfl | hmem
        · exact not_le.mp hb
        · exact hall a hmem
      · right
        refine ⟨b :: pre, c, post, by rw [hL]; rfl, ?_, hc⟩
        intro a ha
        rcases List.mem_cons.mp ha with rfl | hmem
        · exact not_le.mp hb
        · exact hpre a hmem

/-- No node fits: the search ends at `NULL` and the state is untouched. -/
theorem duMalloc_no_fit (s : State) (L : List Int) (fuel : Nat) (n : Int)
    (hL : isList s s.freeListHead L) (hf : L.length < fuel)
    (hsmall : ∀ a ∈ L, (s.heap a).size < neededBytes n) :
    duMalloc fuel s n = some (s, none) := by
  obtain ⟨k, rfl⟩ : ∃ k, fuel = (k + 1) + L.length := ⟨fuel - L.length - 1, by omega⟩
  unfold duMalloc
  rw [mallocLoop_skip _ s L _ none none (k + 1) hL hsmall]
  rfl

/-- The first fitting node is `c`: the search stops there, splits when the test of
line 64 holds, and returns the payload of `c`. -/
theorem duMalloc_fit (s : State) (pre post : List Int) (c : Int) (fuel : Nat) (n : Int)
    (hL : isList s s.freeListHead (pre ++ c :: post)) (hf : pre.length < fuel)
    (hsmall : ∀ a ∈ pre, (s.heap a).size < neededBytes n)
    (hc : neededBytes n ≤ (s.heap c).size) :
    duMalloc fuel s n =
      some (if toULong (toULong (neededBytes n) + sizeofHeader) < toULong (s.heap c).size
              then splitBlock s c (lastPtr none pre) (neededBytes n) else s,
            some (c + sizeofHeader)) := by
  obtain ⟨k, rfl⟩ : ∃ k, fuel = (k + 1) + pre.length := ⟨fuel - pre.length - 1, by omega⟩
  obtain ⟨m, h1, h2⟩ := (isSeg_append s pre (c :: post) _ none).mp hL
  have hm : m = some c := h2.1
  subst hm
  unfold duMalloc
  rw [mallocLoop_skip _ s pre _ (some c) none (k + 1) h1 hsmall]
  simp only [mallocLoop, hc, if_true]
  split <;> rfl

/-! ## Arithmetic of the request size -/

theorem neededBytes_eq (n : Int) (h0 : 0 ≤ n) (h1 : n ≤ 2147483624) :
    neededBytes n = roundUp8 n + sizeofHeader := by
  simp only [neededBytes, roundUp8, toInt, toULong, sizeofHeader]
  omega

theorem roundUp8_bounds (n : Int) (h0 : 0 ≤ n) (h1 : n ≤ 2147483640) :
    n ≤ roundUp8 n ∧ roundUp8 n < n + 8 ∧ roundUp8 n % 8 = 0 := by
  simp only [roundUp8, toInt]
  omega

theorem neededBytes_mod (n : Int) : neededBytes n % 8 = 0 := by
  simp only [neededBytes, roundUp8, toInt, toULong, sizeofHeader]
  omega

/-! ## The split branch, field by field -/

theorem splitBlock_size (s : State) (c : Int) (prev : Ptr) (N a : Int) :
    ((splitBlock s c prev N).heap a).size =
      if a = c then toInt (toULong (toULong N - sizeofHeader))
      else if a = c + N then toInt ((s.heap c).size - N)
      else (s.heap a).size := by
  unfold splitBlock
  cases prev <;> simp

theorem splitBlock_next (s : State) (c : Int) (prev : Ptr) (N a : Int) :
    ((splitBlock s c prev N).heap a).next =
      if prev = some a then some (c + N)
      else if a = c then some (c + N)
      else if a = c + N then (s.heap c).next
      else (s.heap a).next := by
  unfold splitBlock
  cases prev with
  | none => simp
  | some p =>
    by_cases h : a = p
    · subst h; simp
    · have h2 : ¬ p = a := fun e => h e.symm
      simp [h, h2]

theorem splitBlock_head (s : State) (c : Int) (prev : Ptr) (N : Int) :
    (splitBlock s c prev N).freeListHead =
      if prev = none then some (c + N) else s.freeListHead := by
  unfold splitBlock
  cases prev <;> simp

/-! ## Alignment -/

theorem ptrAligned_none : PtrAligned none := by
  intro a h; cases h

theorem ptrAligned_some (a : Int) (h : a % 8 = 0) : PtrAligned (some a) := by
  intro b hb
  have : a = b := Option.some.inj hb
  omega

theorem aligned_init (s : State) : Aligned (duInitMalloc s) := by
  refine ⟨?_, ?_⟩
  · rw [init_head]; exact ptrAligned_some 0 (by decide)
  · intro a; rw [init_next]; exact ptrAligned_none

theorem aligned_splitBlock (s : State) (c : Int) (prev : Ptr) (N : Int)
    (hs : Aligned s) (hc : c % 8 = 0) (hN : N % 8 = 0) :
    Aligned (splitBlock s c prev N) := by
  have hnew : PtrAligned (some (c + N)) := ptrAligned_some _ (by omega)
  refine ⟨?_, ?_⟩
  · rw [splitBlock_head]
    split
    · exact hnew
    · exact hs.1
  · intro a
    rw [splitBlock_next]
    split
    · exact hnew
    · split
      · exact hnew
      · split
        · exact hs.2 c
        · exact hs.2 a

theorem mallocLoop_aligned (N : Int) (hN : N % 8 = 0) :
    ∀ (fuel : Nat) (s : State) (p prev : Ptr) (s1 : State) (r : Ptr),
      Aligned s → PtrAligned p → mallocLoop N fuel s p prev = some (s1, r) →
      Aligned s1 ∧ PtrAligned r := by
  intro fuel
  induction fuel with
  | zero => intro s p prev s1 r _ _ h; cases h
  | succ k ih =>
    intro s p prev s1 r hs hp h
    cases p with
    | none =>
      have h : some (s, (none : Ptr)) = some (s1, r) := h
      cases h
      exact ⟨hs, ptrAligned_none⟩
    | some c =>
      have hc : c % 8 = 0 := hp c rfl
      simp only [mallocLoop] at h
      split at h
      · split at h
        · cases h
          exact ⟨aligned_splitBlock s c prev N hs hc hN,
            ptrAligned_some _ (by simp only [sizeofHeader]; omega)⟩
        · cases h
          exact ⟨hs, ptrAligned_some _ (by simp only [sizeofHeader]; omega)⟩
      · exact ih s _ _ s1 r hs (hs.2 c) h

theorem freeLoop_aligned (b : Int) :
    ∀ (fuel : Nat) (s : State) (p prev cur pv : Ptr),
      Aligned s → PtrAligned p → freeLoop b fuel s p prev = some (cur, pv) →
      PtrAligned cur := by
  intro fuel
  induction fuel with
  | zero => intro s p prev cur pv _ _ h; cases h
  | succ k ih =>
    intro s p prev cur pv hs hp h
    cases p with
    | none =>
      have h : some ((none : Ptr), prev) = some (cur, pv) := h
      cases h
      exact ptrAligned_none
    | some c =>
      simp only [freeLoop] at h
      split at h
      · exact ih s _ _ cur pv hs (hs.2 c) h
      · cases h
        exact hp

theorem duFree_aligned (fuel : Nat) (s s1 : State) (p : Int)
    (hs : Aligned s) (hp : p % 8 = 0) (h : duFree fuel s p = some s1) : Aligned s1 := by
  have hb : PtrAligned (some (p - sizeofHeader)) :=
    ptrAligned_some _ (by simp only [sizeofHeader]; omega)
  unfold duFree at h
  simp only at h
  split at h
  · cases h
  · rename_i cur pv hloop
    have hcur : PtrAligned cur := freeLoop_aligned _ fuel s _ _ cur pv hs hs.1 hloop
    split at h
    · cases h
      refine ⟨hb, ?_⟩
      intro a
      simp only [setHead_heap, setNext_next]
      split
      · exact hcur
      · exact hs.2 a
    · cases h
      refine ⟨hs.1, ?_⟩
      intro a
      simp only [setNext_next]
      split
      · exact hb
      · split
        · exact hcur
        · exact hs.2 a

theorem reach_aligned (lo hi : Int) (s : State) (R : List Int) (h : Reach lo hi s R) :
    Aligned s ∧ ∀ p ∈ R, p % 8 = 0 := by
  induction h with
  | init s0 => exact ⟨aligned_init s0, by intro p hp; cases hp⟩
  | mallocNull fuel n _ _ _ hm ih =>
    exact ⟨(mallocLoop_aligned _ (neededBytes_mod n) fuel _ _ _ _ _ ih.1 ih.1.1 hm).1, ih.2⟩
  | malloc fuel n p _ _ _ hm ih =>
    have := mallocLoop_aligned _ (neededBytes_mod n) fuel _ _ _ _ _ ih.1 ih.1.1 hm
    refine ⟨this.1, ?_⟩
    intro q hq
    rcases List.mem_cons.mp hq with rfl | hmem
    · exact this.2 q rfl
    · exact ih.2 q hmem
  | free fuel p _ hp hf ih =>
    exact ⟨duFree_aligned fuel _ _ p ih.1 (ih.2 p hp) hf, ih.2⟩

theorem freeNode_aligned (s : State) (hs : Aligned s) (a : Int) (h : FreeNode s a) :
    a % 8 = 0 := by
  induction h with
  | head h0 => exact hs.1 _ h0
  | step _ h1 _ => exact hs.2 _ _ h1

/-! ## Relinking a predecessor -/

theorem lastPtr_some_mem (t : List Int) :
    ∀ a : Int, ∃ b, lastPtr (some a) t = some b ∧ b ∈ a :: t := by
  induction t with
  | nil => intro a; exact ⟨a, rfl, List.mem_cons_self a []⟩
  | cons c t ih =>
    intro a
    obtain ⟨b, hb, hmem⟩ := ih c
    exact ⟨b, hb, List.mem_cons_of_mem a hmem⟩

theorem lastPtr_none_mem (pre : List Int) (b : Int) (h : lastPtr none pre = some b) :
    b ∈ pre := by
  cases pre with
  | nil => cases h
  | cons a t =>
    obtain ⟨b1, hb1, hmem⟩ := lastPtr_some_mem t a
    have h : lastPtr (some a) t = some b := h
    rw [hb1] at h
    cases h
    exact hmem

theorem isSeg_relink_aux (s s1 : State) (x q : Ptr) (t : List Int) :
    ∀ (a : Int) (p : Ptr), isSeg s p (a :: t) q → (a :: t).Nodup →
      (∀ b ∈ a :: t, (s1.heap b).next =
        if lastPtr (some a) t = some b then x else (s.heap b).next) →
      isSeg s1 p (a :: t) x := by
  induction t with
  | nil =>
    intro a p hseg _ hnext
    refine ⟨hseg.1, ?_⟩
    have := hnext a (List.mem_cons_self a [])
    simp only [lastPtr, if_true] at this
    exact this
  | cons c t ih =>
    intro a p hseg hnd hnext
    obtain ⟨hp, hrest⟩ := hseg
    refine ⟨hp, ?_⟩
    obtain ⟨b1, hb1, hmem⟩ := lastPtr_some_mem t c
    have hanot : a ∉ c :: t := (List.nodup_cons.mp hnd).1
    have hne : ¬ lastPtr (some c) t = some a := by
      rw [hb1]
      intro e
      cases e
      exact hanot hmem
    have hna := hnext a (List.mem_cons_self a _)
    have hl : lastPtr (some a) (c :: t) = lastPtr (some c) t := rfl
    rw [hl, if_neg hne] at hna
    rw [hna]
    refine ih c _ hrest (List.nodup_cons.mp hnd).2 ?_
    intro b hb
    have := hnext b (List.mem_cons_of_mem a hb)
    rw [hl] at this
    exact this

/-- Storing `x` in the slot the loop left in `prev` (the `next` field of the last node
of `pre`, or `freeListHead` when `pre` is empty) makes `pre` lead to `x`. -/
theorem isSeg_relink (s s1 : State) (pre : List Int) (q x : Ptr)
    (hseg : isSeg s s.freeListHead pre q) (hnd : pre.Nodup)
    (hhead : s1.freeListHead = if lastPtr none pre = none then x else s.freeListHead)
    (hnext : ∀ a ∈ pre, (s1.heap a).next =
      if lastPtr none pre = some a then x else (s.heap a).next) :
    isSeg s1 s1.freeListHead pre x := by
  cases pre with
  | nil =>
    simp only [lastPtr, if_true] at hhead
    exact hhead
  | cons a t =>
    obtain ⟨b1, hb1, _⟩ := lastPtr_some_mem t a
    have hl : lastPtr none (a :: t) = lastPtr (some a) t := rfl
    have hne : ¬ lastPtr none (a :: t) = none := by
      rw [hl, hb1]
      intro e
      cases e
    rw [if_neg hne] at hhead
    rw [hhead]
    exact isSeg_relink_aux s s1 x q t a _ hseg hnd hnext

/-! ## Ascending lists -/

theorem ascending_pairwise (L : List Int) (h : Ascending L) :
    L.Pairwise (fun a b => a < b) := by
  induction L with
  | nil => exact List.Pairwise.nil
  | cons a L ih =>
    have hrest : Ascending L := (List.chain'_cons'.mp h).2
    have hp := ih hrest
    refine List.Pairwise.cons ?_ hp
    intro b hb
    cases L with
    | nil => cases hb
    | cons c L =>
      have hac : a < c := (List.chain'_cons.mp h).1
      rcases List.mem_cons.mp hb with rfl | hmem
      · exact hac
      · exact lt_trans hac ((List.pairwise_cons.mp hp).1 b hmem)

theorem ascending_parts (pre post : List Int) (c : Int)
    (h : Ascending (pre ++ c :: post)) :
    (∀ a ∈ pre, a < c) ∧ (∀ b ∈ post, c < b) ∧ (pre ++ post).Nodup ∧
      (pre ++ c :: post).Nodup ∧ (∀ a ∈ pre, ∀ b ∈ post, a < b) := by
  have hp := ascending_pairwise _ h
  have hnd : (pre ++ c :: post).Nodup := hp.imp (fun hab => ne_of_lt hab)
  obtain ⟨h1, h2, h3⟩ := List.pairwise_append.mp hp
  obtain ⟨h4, h5⟩ := List.pairwise_cons.mp h2
  refine ⟨fun a ha => h3 a ha c (List.mem_cons_self c post), h4, ?_, hnd,
    fun a ha b hb => h3 a ha b (List.mem_cons_of_mem c hb)⟩
  have hsub : (pre ++ post).Sublist (pre ++ c :: post) :=
    List.Sublist.append_left (List.sublist_cons_self c post) pre
  exact hnd.sublist hsub

theorem footprint_next (s : State) (pre post : List Int) (c : Int)
    (h : FootprintsApart s (pre ++ c :: post)) (hasc : Ascending (pre ++ c :: post)) :
    ∀ b ∈ post, c + sizeofHeader + (s.heap c).size ≤ b := by
  intro b hb
  cases post with
  | nil => cases hb
  | cons d post =>
    have h1 : List.Chain' (fun a b => a + sizeofHeader + (s.heap a).size ≤ b)
        (c :: d :: post) := (List.chain'_split.mp h).2
    have hcd := (List.chain'_cons.mp h1).1
    have hasc2 : Ascending (c :: d :: post) := (List.chain'_split.mp hasc).2
    have hp := ascending_pairwise _ (List.chain'_cons.mp hasc2).2
    rcases List.mem_cons.mp hb with rfl | hmem
    · exact hcd
    · have := (List.pairwise_cons.mp hp).1 b hmem
      omega

/-! ## The free list after a split and after a release -/

/-- After the split branch the new free header takes the place of the found block. -/
theorem isList_splitBlock (s : State) (pre post : List Int) (c N : Int)
    (hL : isList s s.freeListHead (pre ++ c :: post))
    (hnd : (pre ++ c :: post).Nodup) (hnew : c + N ∉ pre ++ c :: post) :
    isList (splitBlock s c (lastPtr none pre) N)
      (splitBlock s c (lastPtr none pre) N).freeListHead (pre ++ (c + N) :: post) := by
  obtain ⟨m, h1, h2⟩ := (isSeg_append s pre (c :: post) _ none).mp hL
  obtain ⟨hm, hpost⟩ := h2
  have hndpre : pre.Nodup := (List.nodup_append.mp hnd).1
  have hcpre : c ∉ pre := by
    intro hc
    exact (List.nodup_append.mp hnd).2.2 hc (List.mem_cons_self c post)
  have hcpost : c ∉ post := (List.nodup_cons.mp (List.nodup_append.mp hnd).2.1).1
  have hdisj : ∀ a ∈ post, a ∉ pre := by
    intro a ha hap
    exact (List.nodup_append.mp hnd).2.2 hap (List.mem_cons_of_mem c ha)
  have hnewpre : c + N ∉ pre := fun h => hnew (List.mem_append_left _ h)
  have hnewc : c + N ≠ c := fun h => hnew (by rw [h]; simp)
  have hnewpost : c + N ∉ post :=
    fun h => hnew (List.mem_append_right _ (List.mem_cons_of_mem c h))
  refine (isSeg_append _ pre ((c + N) :: post) _ none).mpr ⟨some (c + N), ?_, rfl, ?_⟩
  · refine isSeg_relink s _ pre m (some (c + N)) h1 hndpre (splitBlock_head s c _ N) ?_
    intro a ha
    rw [splitBlock_next]
    have hac : a ≠ c := fun e => hcpre (e ▸ ha)
    have han : a ≠ c + N := fun e => hnewpre (e ▸ ha)
    simp [hac, han]
  · have hlast : ¬ lastPtr none pre = some (c + N) :=
      fun e => hnewpre (lastPtr_none_mem pre _ e)
    rw [splitBlock_next, if_neg hlast, if_neg hnewc, if_pos rfl]
    refine isSeg_congr s _ post _ none ?_ hpost
    intro a ha
    rw [splitBlock_next]
    have hl : ¬ lastPtr none pre = some a :=
      fun e => hdisj a ha (lastPtr_none_mem pre _ e)
    have hac : a ≠ c := fun e => hcpost (e ▸ ha)
    have han : a ≠ c + N := fun e => hnewpost (e ▸ ha)
    simp [hl, hac, han]

theorem freeResult_size (s : State) (pre post : List Int) (b a : Int) :
    ((freeResult s pre post b).heap a).size = (s.heap a).size := by
  unfold freeResult
  split <;> simp

theorem freeResult_next (s : State) (pre post : List Int) (b a : Int) :
    ((freeResult s pre post b).heap a).next =
      if lastPtr none pre = some a then some b
      else if a = b then post.head? else (s.heap a).next := by
  unfold freeResult
  split
  · rename_i h; simp [h]
  · rename_i p h
    by_cases hap : a = p
    · subst hap; simp [h]
    · have : ¬ p = a := fun e => hap e.symm
      simp [h, hap, this]

theorem freeResult_head (s : State) (pre post : List Int) (b : Int) :
    (freeResult s pre post b).freeListHead =
      if lastPtr none pre = none then some b else s.freeListHead := by
  unfold freeResult
  split
  · rename_i h; simp [h]
  · rename_i p h; simp [h]

/-- The loop of `duFree` walks over the nodes below the freed header and stops at the
first node that is not below it. -/
theorem duFree_insert (s : State) (pre post : List Int) (b : Int) (fuel : Nat)
    (hL : isList s s.freeListHead (pre ++ post)) (hf : pre.length < fuel)
    (hpre : ∀ a ∈ pre, a < b) (hpost : ∀ c, post.head? = some c → ¬ c < b) :
    duFree fuel s (b + sizeofHeader) = some (freeResult s pre post b) := by
  obtain ⟨k, rfl⟩ : ∃ k, fuel = (k + 1) + pre.length := ⟨fuel - pre.length - 1, by omega⟩
  obtain ⟨m, h1, h2⟩ := (isSeg_append s pre post _ none).mp hL
  have hm := isSeg_head s post m h2
  have hb : b + sizeofHeader - sizeofHeader = b := by omega
  unfold duFree freeResult
  simp only [hb]
  rw [freeLoop_skip b s pre _ m none (k + 1) h1 hpre]
  cases post with
  | nil =>
    have hm : m = none := hm
    subst hm
    simp only [freeLoop, List.head?_nil]
    split <;> rfl
  | cons c post =>
    have hm : m = some c := hm
    subst hm
    have hc : ¬ c < b := hpost c rfl
    simp only [freeLoop, hc, if_false, List.head?_cons]
    split <;> rfl

/-- After the release the freed header sits between `pre` and `post`. -/
theorem isList_freeResult (s : State) (pre post : List Int) (b : Int)
    (hL : isList s s.freeListHead (pre ++ post))
    (hnd : (pre ++ post).Nodup) (hb : b ∉ pre ++ post) :
    isList (freeResult s pre post b) (freeResult s pre post b).freeListHead
      (pre ++ b :: post) := by
  obtain ⟨m, h1, h2⟩ := (isSeg_append s pre post _ none).mp hL
  have hm := isSeg_head s post m h2
  have hndpre : pre.Nodup := (List.nodup_append.mp hnd).1
  have hbpre : b ∉ pre := fun h => hb (List.mem_append_left _ h)
  have hbpost : b ∉ post := fun h => hb (List.mem_append_right _ h)
  have hdisj : ∀ a ∈ post, a ∉ pre := by
    intro a ha hap
    exact (List.nodup_append.mp hnd).2.2 hap ha
  refine (isSeg_append _ pre (b :: post) _ none).mpr ⟨some b, ?_, rfl, ?_⟩
  · refine isSeg_relink s _ pre m (some b) h1 hndpre (freeResult_head s pre post b) ?_
    intro a ha
    rw [freeResult_next]
    have hab : a ≠ b := fun e => hbpre (e ▸ ha)
    simp [hab]
  · have hlast : ¬ lastPtr none pre = some b :=
      fun e => hbpre (lastPtr_none_mem pre _ e)
    rw [freeResult_next, if_neg hlast, if_pos rfl, ← hm]
    refine isSeg_congr s _ post _ none ?_ h2
    intro a ha
    rw [freeResult_next]
    have hl : ¬ lastPtr none pre = some a :=
      fun e => hdisj a ha (lastPtr_none_mem pre _ e)
    have hab : a ≠ b := fun e => hbpost (e ▸ ha)
    simp [hl, hab]

/-! ## Finite lists, insertion points -/

/-- A walk that ends at `NULL` meets no node twice. -/
theorem isList_nodup (s : State) (L : List Int) :
    ∀ p : Ptr, isSeg s p L none → L.Nodup := by
  induction L with
  | nil => intro p _; exact List.nodup_nil
  | cons a L ih =>
    intro p h
    obtain ⟨_, hrest⟩ := h
    refine List.nodup_cons.mpr ⟨?_, ih _ hrest⟩
    intro hmem
    obtain ⟨L1, L2, hsplit⟩ := List.append_of_mem hmem
    rw [hsplit] at hrest
    obtain ⟨m, _, h2⟩ := (isSeg_append s L1 (a :: L2) _ none).mp hrest
    have h3 : isSeg s (s.heap a).next L2 none := h2.2
    have heq := isSeg_unique s L2 (L1 ++ a :: L2) _ h3 hrest
    have hlen := congrArg List.length heq
    simp only [List.length_append, List.length_cons] at hlen
    omega

theorem lastPtr_getLast (pre : List Int) :
    ∀ prev : Ptr, lastPtr prev pre = pre.getLast?.or prev := by
  induction pre with
  | nil => intro prev; rfl
  | cons a t ih =>
    intro prev
    show lastPtr (some a) t = _
    rw [ih (some a), List.getLast?_cons]
    cases t.getLast? <;> rfl

/-- Every list splits at its first node that is not below `b`. -/
theorem below_split (b : Int) (L : List Int) :
    ∃ pre post, L = pre ++ post ∧ (∀ a ∈ pre, a < b) ∧
      (∀ c, post.head? = some c → ¬ c < b) := by
  induction L with
  | nil => exact ⟨[], [], rfl, (by intro a ha; cases ha), (by intro c hc; cases hc)⟩
  | cons d L ih =>
    by_cases hd : d < b
    · obtain ⟨pre, post, hL, hpre, hpost⟩ := ih
      refine ⟨d :: pre, post, by rw [hL]; rfl, ?_, hpost⟩
      intro a ha
      rcases List.mem_cons.mp ha with rfl | hmem
      · exact hd
      · exact hpre a hmem
    · refine ⟨[], d :: L, rfl, (by intro a ha; cases ha), ?_⟩
      intro c hc
      have : d = c := Option.some.inj hc
      omega

theorem ascending_of_pairwise (L : List Int) (h : L.Pairwise (fun a b => a < b)) :
    Ascending L := List.Pairwise.chain' h

/-- In an ascending list split at its first node not below `b`, with `b` not a node,
the second part lies above `b`, and inserting `b` there keeps the list ascending. -/
theorem ascending_insert (pre post : List Int) (b : Int)
    (hasc : Ascending (pre ++ post)) (hb : b ∉ pre ++ post)
    (hpre : ∀ a ∈ pre, a < b) (hpost : ∀ c, post.head? = some c → ¬ c < b) :
    (∀ c ∈ post, b < c) ∧ Ascending (pre ++ b :: post) := by
  have hp := ascending_pairwise _ hasc
  obtain ⟨h1, h2, h3⟩ := List.pairwise_append.mp hp
  have habove : ∀ c ∈ post, b < c := by
    intro c hc
    cases post with
    | nil => cases hc
    | cons d post =>
      have hd : ¬ d < b := hpost d rfl
      have hdb : d ≠ b := by
        intro e
        exact hb (List.mem_append_right _ (by rw [e]; exact List.mem_cons_self _ _))
      rcases List.mem_cons.mp hc with rfl | hmem
      · omega
      · have := (List.pairwise_cons.mp h2).1 c hmem
        omega
  refine ⟨habove, ascending_of_pairwise _ ?_⟩
  refine List.pairwise_append.mpr ⟨h1, List.pairwise_cons.mpr ⟨habove, h2⟩, ?_⟩
  intro a ha c hc
  rcases List.mem_cons.mp hc with rfl | hmem
  · exact hpre a ha
  · exact h3 a ha c hmem

/-! ## Allocation by split followed by release -/

theorem freeFootprint_of_isList (s : State) (L : List Int) (fuel : Nat)
    (hL : isList s s.freeListHead L) (hf : L.length < fuel) :
    freeFootprint fuel s = some (L.map (fun a => sizeofHeader + (s.heap a).size)).sum := by
  unfold freeFootprint duMemoryDump
  rw [dumpLoop_of_isSeg s L _ fuel hL hf]
  simp [Function.comp_def]

/-- On a free list that satisfies the layout conditions, a `duMalloc` that splits the
found block `c`, followed by `duFree` of the returned pointer, leaves the free list
`pre`, `c`, the carved header, `post`, with the sizes the split wrote. -/
theorem round_trip_shape (s : State) (L : List Int) (fuel : Nat) (n : Int)
    (s1 : State) (p : Int)
    (hL : isList s s.freeListHead L) (hasc : Ascending L) (hfp : FootprintsApart s L)
    (hint : IntSizes s L) (hf : L.length + 1 < fuel)
    (h1 : 1 ≤ n) (h2 : n ≤ 2147483624)
    (hm : duMalloc fuel s n = some (s1, some p))
    (hsplit : neededBytes n + sizeofHeader < (s.heap (p - sizeofHeader)).size) :
    ∃ pre post c s2, L = pre ++ c :: post ∧ p = c + sizeofHeader ∧
      duFree fuel s1 p = some s2 ∧
      isList s2 s2.freeListHead (pre ++ c :: (c + neededBytes n) :: post) ∧
      (∀ a ∈ pre ++ post, (s2.heap a).size = (s.heap a).size) ∧
      (s2.heap c).size = neededBytes n - sizeofHeader ∧
      (s2.heap (c + neededBytes n)).size = (s.heap c).size - neededBytes n := by
  have hN := neededBytes_eq n (by omega) h2
  have hr := roundUp8_bounds n (by omega) (by omega)
  rcases first_fit_split s (neededBytes n) L with hall | ⟨pre, c, post, hLeq, hpre, hc⟩
  · rw [duMalloc_no_fit s L fuel n hL (by omega) hall] at hm
    cases hm
  · subst hLeq
    have hlen : (pre ++ c :: post).length = pre.length + post.length + 1 := by
      simp only [List.length_append, List.length_cons]; omega
    rw [duMalloc_fit s pre post c fuel n hL (by omega) hpre hc] at hm
    have hm := Option.some.inj hm
    have hp : c + sizeofHeader = p := Option.some.inj (congrArg Prod.snd hm)
    have hs1 := congrArg Prod.fst hm
    simp only at hs1
    have hcp : p - sizeofHeader = c := by omega
    rw [hcp] at hsplit
    generalize hNdef : neededBytes n = N at *
    have hH : sizeofHeader = 16 := rfl
    have hSint := hint c (by simp)
    have hN24 : 24 ≤ N := by simp only [sizeofHeader] at hN; omega
    have htest : toULong (toULong N + sizeofHeader) < toULong (s.heap c).size := by
      simp only [sizeofHeader] at hsplit
      simp only [toULong, sizeofHeader]
      omega
    rw [if_pos htest] at hs1
    obtain ⟨hprelt, hpostgt, hndpp, hnd, _⟩ := ascending_parts pre post c hasc
    have hfoot := footprint_next s pre post c hfp hasc
    have hnewpre : c + N ∉ pre := by
      intro h; have := hprelt _ h; omega
    have hnewpost : c + N ∉ post := by
      intro h; have := hfoot _ h; omega
    have hnew : c + N ∉ pre ++ c :: post := by
      intro h
      rcases List.mem_append.mp h with h | h
      · exact hnewpre h
      · rcases List.mem_cons.mp h with h | h
        · omega
        · exact hnewpost h
    have hL1 := isList_splitBlock s pre post c N hL hnd hnew
    rw [hs1] at hL1
    have hcpre : c ∉ pre := by
      intro h; have := hprelt _ h; omega
    have hcpost : c ∉ post := by
      intro h; have := hpostgt _ h; omega
    have hfree : duFree fuel s1 (c + sizeofHeader) =
        some (freeResult s1 pre ((c + N) :: post) c) := by
      refine duFree_insert s1 pre ((c + N) :: post) c fuel hL1 (by omega) hprelt ?_
      intro d hd
      have : c + N = d := Option.some.inj hd
      omega
    have hnd1 : (pre ++ (c + N) :: post).Nodup := by
      rw [List.nodup_middle, List.nodup_cons]
      refine ⟨?_, hndpp⟩
      intro h
      rcases List.mem_append.mp h with h | h
      · exact hnewpre h
      · exact hnewpost h
    have hc1 : c ∉ pre ++ (c + N) :: post := by
      intro h
      rcases List.mem_append.mp h with h | h
      · exact hcpre h
      · rcases List.mem_cons.mp h with h | h
        · omega
        · exact hcpost h
    have hL2 := isList_freeResult s1 pre ((c + N) :: post) c hL1 hnd1 hc1
    have hsz : ∀ a, ((freeResult s1 pre ((c + N) :: post) c).heap a).size =
        if a = c then toInt (toULong (toULong N - sizeofHeader))
        else if a = c + N then toInt ((s.heap c).size - N)
        else (s.heap a).size := by
      intro a
      rw [freeResult_size, ← hs1, splitBlock_size]
    have hne : c + N ≠ c := by omega
    refine ⟨pre, post, c, _, rfl, hp.symm, by rw [← hp]; exact hfree, hL2, ?_, ?_, ?_⟩
    · intro a ha
      have hac : a ≠ c := by
        intro e
        rcases List.mem_append.mp ha with h | h
        · exact hcpre (e ▸ h)
        · exact hcpost (e ▸ h)
      have han : a ≠ c + N := by
        intro e
        rcases List.mem_append.mp ha with h | h
        · exact hnewpre (e ▸ h)
        · exact hnewpost (e ▸ h)
      rw [hsz, if_neg hac, if_neg han]
    · rw [hsz, if_pos rfl]
      simp only [toInt, toULong, sizeofHeader]
      omega
    · rw [hsz, if_neg hne, if_pos rfl]
      simp only [toInt]
      omega

/-! ## The layout invariant across a split -/

/-- Replacing the node `c` of a chain by `c1`, under a relation that the steps into
and out of the replaced node still satisfy. -/
theorem chain_replace (R R1 : Int → Int → Prop) (c c1 : Int) (post : List Int)
    (hcp : ∀ y ∈ post, R c y → R1 c1 y)
    (hpost : ∀ x ∈ post, ∀ y, R x y → R1 x y) :
    ∀ pre : List Int, (∀ x ∈ pre, ∀ y, y ≠ c → R x y → R1 x y) →
      (∀ x ∈ pre, c ∉ pre → R x c → R1 x c1) → c ∉ pre →
      List.Chain' R (pre ++ c :: post) → List.Chain' R1 (pre ++ c1 :: post) := by
  have hbase : List.Chain' R (c :: post) → List.Chain' R1 (c1 :: post) := by
    intro h
    cases post with
    | nil => exact List.chain'_singleton c1
    | cons d post =>
      obtain ⟨hcd, hrest⟩ := List.chain'_cons.mp h
      refine List.chain'_cons.mpr ⟨hcp d (List.mem_cons_self d post) hcd, ?_⟩
      have h2 := List.Chain'.iff_mem.mp hrest
      exact h2.imp (fun x y hab => hpost x hab.1 y hab.2.2)
  intro pre
  induction pre with
  | nil => intro _ _ _ h; exact hbase h
  | cons x pre ih =>
    intro hpp hpc hc h
    have hcx : c ≠ x := fun e => hc (e ▸ List.mem_cons_self x pre)
    have hcpre : c ∉ pre := fun e => hc (List.mem_cons_of_mem x e)
    have ih2 := ih (fun a ha => hpp a (List.mem_cons_of_mem x ha))
      (fun a ha _ => hpc a (List.mem_cons_of_mem x ha) hc) hcpre
    cases pre with
    | nil =>
      obtain ⟨hxc, hrest⟩ := List.chain'_cons.mp h
      exact List.chain'_cons.mpr ⟨hpc x (List.mem_cons_self x []) hc hxc, ih2 hrest⟩
    | cons y pre =>
      obtain ⟨hxy, hrest⟩ := List.chain'_cons.mp h
      have hyc : y ≠ c := fun e => hcpre (e ▸ List.mem_cons_self y pre)
      exact List.chain'_cons.mpr ⟨hpp x (List.mem_cons_self x _) y hyc hxy, ih2 hrest⟩

/-- The split branch keeps the layout invariant. -/
theorem layout_splitBlock (s : State) (pre post : List Int) (c N : Int)
    (hlay : Layout s (pre ++ c :: post)) (hN : 16 ≤ N)
    (hsplit : N + sizeofHeader < (s.heap c).size) :
    Layout (splitBlock s c (lastPtr none pre) N) (pre ++ (c + N) :: post) := by
  obtain ⟨hL, hasc, hfp, hin⟩ := hlay
  have hH : sizeofHeader = 16 := rfl
  have hHS : HEAP_SIZE = 1024 := rfl
  obtain ⟨hprelt, hpostgt, hndpp, hnd, hprepost⟩ := ascending_parts pre post c hasc
  have hfoot := footprint_next s pre post c hfp hasc
  have hcin := hin c (by simp)
  have hnewpre : c + N ∉ pre := by
    intro h; have := hprelt _ h; omega
  have hnewpost : c + N ∉ post := by
    intro h; have := hfoot _ h; omega
  have hnew : c + N ∉ pre ++ c :: post := by
    intro h
    rcases List.mem_append.mp h with h | h
    · exact hnewpre h
    · rcases List.mem_cons.mp h with h | h
      · omega
      · exact hnewpost h
  have hcpre : c ∉ pre := by
    intro h; have := hprelt _ h; omega
  have hcpost : c ∉ post := by
    intro h; have := hpostgt _ h; omega
  have hszpre : ∀ a ∈ pre, ((splitBlock s c (lastPtr none pre) N).heap a).size =
      (s.heap a).size := by
    intro a ha
    have hac : a ≠ c := fun e => hcpre (e ▸ ha)
    have han : a ≠ c + N := fun e => hnewpre (e ▸ ha)
    rw [splitBlock_size, if_neg hac, if_neg han]
  have hszpost : ∀ a ∈ post, ((splitBlock s c (lastPtr none pre) N).heap a).size =
      (s.heap a).size := by
    intro a ha
    have hac : a ≠ c := fun e => hcpost (e ▸ ha)
    have han : a ≠ c + N := fun e => hnewpost (e ▸ ha)
    rw [splitBlock_size, if_neg hac, if_neg han]
  have hsznew : ((splitBlock s c (lastPtr none pre) N).heap (c + N)).size =
      (s.heap c).size - N := by
    rw [splitBlock_size, if_neg (by omega), if_pos rfl]
    simp only [toInt]
    omega
  refine ⟨isList_splitBlock s pre post c N hL hnd hnew, ?_, ?_, ?_⟩
  · have hp := ascending_pairwise _ hasc
    obtain ⟨h1, h2, _⟩ := List.pairwise_append.mp hp
    refine ascending_of_pairwise _ (List.pairwise_append.mpr ⟨h1,
      List.pairwise_cons.mpr ⟨?_, (List.pairwise_cons.mp h2).2⟩, ?_⟩)
    · intro b hb
      have := hfoot b hb
      omega
    · intro a ha b hb
      rcases List.mem_cons.mp hb with rfl | hmem
      · have := hprelt a ha
        omega
      · exact hprepost a ha b hmem
  · refine chain_replace _ _ c (c + N) post ?_ ?_ pre ?_ ?_ hcpre hfp
    · intro y _ hy
      rw [hsznew]
      omega
    · intro x hx y hxy
      rw [hszpost x hx]
      exact hxy
    · intro x hx y _ hxy
      rw [hszpre x hx]
      exact hxy
    · intro x hx _ hxc
      rw [hszpre x hx]
      omega
  · intro a ha
    rcases List.mem_append.mp ha with h | h
    · rw [hszpre a h]
      exact hin a (List.mem_append_left _ h)
    · rcases List.mem_cons.mp h with h | h
      · subst h
        rw [hsznew]
        refine ⟨by omega, by omega, by omega⟩
      · rw [hszpost a h]
        exact hin a (List.mem_append_right _ (List.mem_cons_of_mem c h))

/-! ## Positive sizes -/

theorem neededBytes_cases (n : Int) (h1 : 1 ≤ n) (h2 : n ≤ 2147483647) :
    (24 ≤ neededBytes n ∧ neededBytes n ≤ 2147483647) ∨ neededBytes n ≤ -2147483632 := by
  simp only [neededBytes, roundUp8, toInt, toULong, sizeofHeader]
  omega

theorem positive_init (s : State) : Positive (duInitMalloc s) := by
  refine ⟨?_, ?_, ?_⟩
  · intro a
    rw [init_size]
    split <;> decide
  · intro a ha
    rw [init_head] at ha
    have : (0 : Int) = a := Option.some.inj ha
    subst this
    rw [init_size, if_pos rfl]
    decide
  · intro a b hb
    rw [init_next] at hb
    cases hb

/-- The unsigned test of line 64 on non-negative `int`s is the plain comparison, and it
fails whenever the needed bytes have wrapped to a negative value. -/
theorem split_test_iff (N S : Int) (hS0 : 0 ≤ S) (hS1 : S ≤ 2147483647)
    (hN : (24 ≤ N ∧ N ≤ 2147483647) ∨ N ≤ -2147483632) (hNlo : -2147483648 ≤ N) :
    toULong (toULong N + sizeofHeader) < toULong S ↔ (24 ≤ N ∧ N + sizeofHeader < S) := by
  simp only [toULong, sizeofHeader]
  omega

theorem neededBytes_lower (n : Int) : -2147483648 ≤ neededBytes n := by
  simp only [neededBytes, toInt]
  omega

theorem positive_splitBlock (s : State) (c : Int) (prev : Ptr) (N : Int)
    (hs : Positive s) (hN : 24 ≤ N) (hN2 : N ≤ 2147483647)
    (hsplit : N + sizeofHeader < (s.heap c).size) :
    Positive (splitBlock s c prev N) ∧
      (∀ a, 0 < (s.heap a).size → 0 < ((splitBlock s c prev N).heap a).size) ∧
      0 < ((splitBlock s c prev N).heap c).size := by
  have hH : sizeofHeader = 16 := rfl
  have hS := hs.1 c
  have hsz : ∀ a, ((splitBlock s c prev N).heap a).size =
      if a = c then N - 16 else if a = c + N then (s.heap c).size - N
      else (s.heap a).size := by
    intro a
    rw [splitBlock_size]
    simp only [toInt, toULong, sizeofHeader]
    split
    · omega
    · split
      · omega
      · rfl
  have hmono : ∀ a, 0 < (s.heap a).size → 0 < ((splitBlock s c prev N).heap a).size := by
    intro a ha
    rw [hsz]
    split
    · omega
    · split
      · omega
      · exact ha
  have hnewpos : PtrPositive (splitBlock s c prev N) (some (c + N)) := by
    intro b hb
    have : c + N = b := Option.some.inj hb
    subst this
    rw [hsz, if_neg (by omega), if_pos rfl]
    omega
  have hold : ∀ q : Ptr, PtrPositive s q → PtrPositive (splitBlock s c prev N) q :=
    fun q hq b hb => hmono b (hq b hb)
  refine ⟨⟨?_, ?_, ?_⟩, hmono, ?_⟩
  · intro a
    have := hs.1 a
    rw [hsz]
    split
    · omega
    · split
      · omega
      · exact this
  · rw [splitBlock_head]
    split
    · exact hnewpos
    · exact hold _ hs.2.1
  · intro a
    rw [splitBlock_next]
    split
    · exact hnewpos
    · split
      · exact hnewpos
      · split
        · exact hold _ (hs.2.2 c)
        · exact hold _ (hs.2.2 a)
  · rw [hsz, if_pos rfl]
    omega

theorem mallocLoop_positive (N : Int)
    (hN : (24 ≤ N ∧ N ≤ 2147483647) ∨ N ≤ -2147483632) (hNlo : -2147483648 ≤ N) :
    ∀ (fuel : Nat) (s : State) (p prev : Ptr) (s1 : State) (r : Ptr),
      Positive s → PtrPositive s p → mallocLoop N fuel s p prev = some (s1, r) →
      Positive s1 ∧ (∀ a, 0 < (s.heap a).size → 0 < (s1.heap a).size) ∧
        (∀ q, r = some q → 0 < (s1.heap (q - sizeofHeader)).size) := by
  intro fuel
  induction fuel with
  | zero => intro s p prev s1 r _ _ h; cases h
  | succ k ih =>
    intro s p prev s1 r hs hp h
    cases p with
    | none =>
      have h : some (s, (none : Ptr)) = some (s1, r) := h
      cases h
      exact ⟨hs, fun a ha => ha, by intro q hq; cases hq⟩
    | some c =>
      have hc : 0 < (s.heap c).size := hp c rfl
      have hS := hs.1 c
      simp only [mallocLoop] at h
      split at h
      · split at h
        · rename_i htest
          cases h
          have ht := (split_test_iff N _ hS.1 hS.2 hN hNlo).mp htest
          obtain ⟨h1, h2, h3⟩ := positive_splitBlock s c prev N hs ht.1
            (by rcases hN with h | h <;> omega) ht.2
          refine ⟨h1, h2, ?_⟩
          intro q hq
          have : c + sizeofHeader = q := Option.some.inj hq
          have hqc : q - sizeofHeader = c := by omega
          rw [hqc]
          exact h3
        · cases h
          refine ⟨hs, fun a ha => ha, ?_⟩
          intro q hq
          have : c + sizeofHeader = q := Option.some.inj hq
          have hqc : q - sizeofHeader = c := by omega
          rw [hqc]
          exact hc
      · exact ih s _ _ s1 r hs (hs.2.2 c) h

theorem freeLoop_positive (b : Int) :
    ∀ (fuel : Nat) (s : State) (p prev cur pv : Ptr),
      Positive s → PtrPositive s p → freeLoop b fuel s p prev = some (cur, pv) →
      PtrPositive s cur := by
  intro fuel
  induction fuel with
  | zero => intro s p prev cur pv _ _ h; cases h
  | succ k ih =>
    intro s p prev cur pv hs hp h
    cases p with
    | none =>
      have h : some ((none : Ptr), prev) = some (cur, pv) := h
      cases h
      intro a ha
      cases ha
    | some c =>
      simp only [freeLoop] at h
      split at h
      · exact ih s _ _ cur pv hs (hs.2.2 c) h
      · cases h
        exact hp

theorem duFree_positive (fuel : Nat) (s s1 : State) (p : Int)
    (hs : Positive s) (hp : 0 < (s.heap (p - sizeofHeader)).size)
    (h : duFree fuel s p = some s1) :
    Positive s1 ∧ ∀ a, (s1.heap a).size = (s.heap a).size := by
  have hb : PtrPositive s (some (p - sizeofHeader)) := by
    intro a ha
    have : p - sizeofHeader = a := Option.some.inj ha
    subst this
    exact hp
  unfold duFree at h
  simp only at h
  split at h
  · cases h
  · rename_i cur pv hloop
    have hcur : PtrPositive s cur := freeLoop_positive _ fuel s _ _ cur pv hs hs.2.1 hloop
    split at h
    · cases h
      refine ⟨⟨?_, ?_, ?_⟩, ?_⟩
      · intro a
        simp only [setHead_heap, setNext_size]
        exact hs.1 a
      · intro a ha
        simp only [setHead_heap, setNext_size]
        exact hb a ha
      · intro a c hc
        simp only [setHead_heap, setNext_next] at hc
        simp only [setHead_heap, setNext_size]
        split at hc
        · exact hcur c hc
        · exact hs.2.2 a c hc
      · intro a
        simp only [setHead_heap, setNext_size]
    · cases h
      refine ⟨⟨?_, ?_, ?_⟩, ?_⟩
      · intro a
        simp only [setNext_size]
        exact hs.1 a
      · intro a ha
        simp only [setNext_size]
        exact hs.2.1 a ha
      · intro a c hc
        simp only [setNext_next] at hc
        simp only [setNext_size]
        split at hc
        · exact hb c hc
        · split at hc
          · exact hcur c hc
          · exact hs.2.2 a c hc
      · intro a
        simp only [setNext_size]

theorem reach_positive (s : State) (R : List Int) (h : Reach 1 2147483647 s R) :
    Positive s ∧ ∀ p ∈ R, 0 < (s.heap (p - sizeofHeader)).size := by
  induction h with
  | init s0 => exact ⟨positive_init s0, by intro p hp; cases hp⟩
  | mallocNull fuel n _ hn1 hn2 hm ih =>
    obtain ⟨h1, h2, _⟩ := mallocLoop_positive _ (neededBytes_cases n hn1 hn2)
      (neededBytes_lower n) fuel _ _ _ _ _ ih.1 ih.1.2.1 hm
    exact ⟨h1, fun p hp => h2 _ (ih.2 p hp)⟩
  | malloc fuel n p _ hn1 hn2 hm ih =>
    obtain ⟨h1, h2, h3⟩ := mallocLoop_positive _ (neededBytes_cases n hn1 hn2)
      (neededBytes_lower n) fuel _ _ _ _ _ ih.1 ih.1.2.1 hm
    refine ⟨h1, ?_⟩
    intro q hq
    rcases List.mem_cons.mp hq with rfl | hmem
    · exact h3 q rfl
    · exact h2 _ (ih.2 q hmem)
  | free fuel p _ hp hf ih =>
    obtain ⟨h1, h2⟩ := duFree_positive fuel _ _ p ih.1 (ih.2 p hp) hf
    refine ⟨h1, ?_⟩
    intro q hq
    rw [h2]
    exact ih.2 q hq

theorem freeNode_positive (s : State) (hs : Positive s) (a : Int) (h : FreeNode s a) :
    0 < (s.heap a).size := by
  induction h with
  | head h0 => exact hs.2.1 _ h0
  | step _ h1 _ => exact hs.2.2 _ _ h1

theorem neededBytes_cases_zero (n : Int) (h0 : 0 ≤ n) (h2 : n ≤ 2147483647) :
    (16 ≤ neededBytes n ∧ neededBytes n ≤ 2147483647) ∨ neededBytes n ≤ -2147483632 := by
  simp only [neededBytes, roundUp8, toInt, toULong, sizeofHeader]
  omega

/-- The unsigned test of line 64 on a non-negative `int` size, for needed bytes that
are non-negative or have wrapped far below zero. -/
theorem split_test_iff_zero (N S : Int) (hS0 : 0 ≤ S) (hS1 : S ≤ 2147483647)
    (hN : (0 ≤ N ∧ N ≤ 2147483647) ∨ N ≤ -2147483632) (hNlo : -2147483648 ≤ N) :
    toULong (toULong N + sizeofHeader) < toULong S ↔ (0 ≤ N ∧ N + sizeofHeader < S) := by
  simp only [toULong, sizeofHeader]
  omega

/-- On a state that satisfies the layout invariant, sizes are non-negative `int`s. -/
theorem layout_sizes (s : State) (L : List Int) (hlay : Layout s L) :
    IntSizes s L ∧ ∀ a ∈ L, 0 ≤ (s.heap a).size ∧ (s.heap a).size ≤ 1008 := by
  have hH : sizeofHeader = 16 := rfl
  have hHS : HEAP_SIZE = 1024 := rfl
  refine ⟨?_, ?_⟩
  · intro a ha
    have := hlay.2.2.2 a ha
    omega
  · intro a ha
    have := hlay.2.2.2 a ha
    omega

/-- What a successful search returns: the payload of a node that passes the fit test,
in the state the split branch leaves when the test of line 64 holds. -/
theorem mallocLoop_result (N : Int) :
    ∀ (fuel : Nat) (s : State) (q prev : Ptr) (s1 : State) (p : Int),
      mallocLoop N fuel s q prev = some (s1, some p) →
      N ≤ (s.heap (p - sizeofHeader)).size ∧
      ∃ prev1, s1 =
        if toULong (toULong N + sizeofHeader) < toULong (s.heap (p - sizeofHeader)).size
          then splitBlock s (p - sizeofHeader) prev1 N else s := by
  intro fuel
  induction fuel with
  | zero => intro s q prev s1 p h; cases h
  | succ k ih =>
    intro s q prev s1 p h
    cases q with
    | none =>
      have h : some (s, (none : Ptr)) = some (s1, some p) := h
      cases h
    | some c =>
      simp only [mallocLoop] at h
      split at h
      · rename_i hfit
        have hp : c + sizeofHeader = p := by
          split at h <;> exact Option.some.inj (congrArg Prod.snd (Option.some.inj h))
        have hpc : p - sizeofHeader = c := by omega
        rw [hpc]
        refine ⟨hfit, prev, ?_⟩
        split at h
        · rename_i ht
          rw [if_pos ht]
          exact (congrArg Prod.fst (Option.some.inj h)).symm
        · rename_i ht
          rw [if_neg ht]
          exact (congrArg Prod.fst (Option.some.inj h)).symm
      · exact ih s _ _ s1 p h

/-! ## Requests that take the split branch -/

/-- A pointer returned by `duMalloc` on a finite free list is the payload of a node of
that list. -/
theorem duMalloc_returned_mem (s : State) (L : List Int) (fuel : Nat) (n : Int)
    (s1 : State) (p : Int) (hL : isList s s.freeListHead L) (hf : L.length < fuel)
    (hm : duMalloc fuel s n = some (s1, some p)) : p - sizeofHeader ∈ L := by
  rcases first_fit_split s (neededBytes n) L with hall | ⟨pre, c, post, hLeq, hpre, hc⟩
  · rw [duMalloc_no_fit s L fuel n hL hf hall] at hm
    cases hm
  · subst hLeq
    have hf2 : pre.length < fuel := by
      simp only [List.length_append, List.length_cons] at hf
      omega
    rw [duMalloc_fit s pre post c fuel n hL hf2 hpre hc] at hm
    have hp : c + sizeofHeader = p :=
      Option.some.inj (congrArg Prod.snd (Option.some.inj hm))
    have hcp : p - sizeofHeader = c := by omega
    rw [hcp]
    simp

/-- On a state that satisfies the layout invariant, an `int` request `n ≥ 1` for which
the test of line 64 holds on the returned block has needed bytes that did not wrap:
`n ≤ INT_MAX - 23`, and the block's size exceeds `neededBytes + H`. -/
theorem split_request_in_range (s : State) (L : List Int) (fuel : Nat) (n : Int)
    (s1 : State) (p : Int) (hlay : Layout s L) (hf : L.length < fuel)
    (h1 : 1 ≤ n) (h2 : n ≤ 2147483647)
    (hm : duMalloc fuel s n = some (s1, some p))
    (htest : toULong (toULong (neededBytes n) + sizeofHeader) <
      toULong (s.heap (p - sizeofHeader)).size) :
    n ≤ 2147483624 ∧ neededBytes n + sizeofHeader < (s.heap (p - sizeofHeader)).size := by
  have hmem := duMalloc_returned_mem s L fuel n s1 p hlay.1 hf hm
  have hS := (layout_sizes s L hlay).2 _ hmem
  have ht := (split_test_iff _ _ hS.1 (by omega) (neededBytes_cases n h1 h2)
    (neededBytes_lower n)).mp htest
  refine ⟨?_, ht.2⟩
  have h24 := ht.1
  simp only [neededBytes, roundUp8, toInt, toULong, sizeofHeader] at h24
  omega

/-! ## The frame of a release -/

/-- In the header-granular state `duFree` performs two stores: `blockToFree->next`, and
`freeListHead` or `prev->next`; when the freed header was not on the list the list
grows by that node. -/
theorem duFree_frame (s : State) (L : List Int) (fuel : Nat) (p : Int)
    (hL : isList s s.freeListHead L) (hf : L.length < fuel) :
    ∃ s1, duFree fuel s p = some s1 ∧
      (∀ a, (s1.heap a).size = (s.heap a).size) ∧
      ((s1.freeListHead = s.freeListHead ∧
          ∃ q ∈ L, ∀ a, a ≠ p - sizeofHeader → a ≠ q →
            (s1.heap a).next = (s.heap a).next) ∨
        (∀ a, a ≠ p - sizeofHeader → (s1.heap a).next = (s.heap a).next)) ∧
      (p - sizeofHeader ∉ L →
        ∃ L1, isList s1 s1.freeListHead L1 ∧ L1.length = L.length + 1 ∧
          (∀ a, a ∈ L1 ↔ a = p - sizeofHeader ∨ a ∈ L) ∧
          (L.Pairwise HeadersApart → (∀ a ∈ L, HeadersApart a (p - sizeofHeader)) →
            L1.Pairwise HeadersApart) ∧
          ∀ b ∈ L,
            (p - sizeofHeader + sizeofHeader + (s.heap (p - sizeofHeader)).size = b ∨
              b + sizeofHeader + (s.heap b).size = p - sizeofHeader) →
            b ∈ L1 ∧ p - sizeofHeader ∈ L1 ∧ b ≠ p - sizeofHeader ∧
              (s1.heap b).size = (s.heap b).size ∧
              (s1.heap (p - sizeofHeader)).size = (s.heap (p - sizeofHeader)).size) := by
  obtain ⟨pre, post, hsplit, hpre, hpost⟩ := below_split (p - sizeofHeader) L
  subst hsplit
  have hf2 : pre.length < fuel := by
    simp only [List.length_append] at hf
    omega
  have hpp : p = (p - sizeofHeader) + sizeofHeader := by omega
  have hfree := duFree_insert s pre post (p - sizeofHeader) fuel hL hf2 hpre hpost
  rw [← hpp] at hfree
  have hnd := isList_nodup s _ _ hL
  refine ⟨_, hfree, fun a => freeResult_size s pre post _ a, ?_, ?_⟩
  · cases hq : lastPtr none pre with
    | none =>
      right
      intro a ha
      rw [freeResult_next, hq, if_neg (by intro e; cases e), if_neg ha]
    | some q =>
      left
      refine ⟨?_, q, List.mem_append_left _ (lastPtr_none_mem pre q hq), ?_⟩
      · rw [freeResult_head, hq, if_neg (by intro e; cases e)]
      · intro a ha haq
        have : ¬ some q = some a := fun e => haq (Option.some.inj e).symm
        rw [freeResult_next, hq, if_neg this, if_neg ha]
  · intro hp
    refine ⟨pre ++ (p - sizeofHeader) :: post,
      isList_freeResult s pre post _ hL hnd hp, ?_, ?_, ?_, ?_⟩
    · simp only [List.length_append, List.length_cons]
      omega
    · intro a
      simp only [List.mem_append, List.mem_cons]
      tauto
    · intro hpw hall
      obtain ⟨h1, h2, h3⟩ := List.pairwise_append.mp hpw
      refine List.pairwise_append.mpr ⟨h1, List.pairwise_cons.mpr ⟨?_, h2⟩, ?_⟩
      · intro b hb
        exact (hall b (List.mem_append_right _ hb)).symm
      · intro a ha b hb
        rcases List.mem_cons.mp hb with rfl | hmem
        · exact hall a (List.mem_append_left _ ha)
        · exact h3 a ha b hmem
    · intro b hb _
      refine ⟨?_, by simp, ?_, freeResult_size s pre post _ b,
        freeResult_size s pre post _ _⟩
      · rcases List.mem_append.mp hb with h | h
        · exact List.mem_append_left _ h
        · exact List.mem_append_right _ (List.mem_cons_of_mem _ h)
      · intro e
        exact hp (e ▸ hb)

/-! ## Search results for requests in range -/

/-- Exhaustion where the needed bytes fit an `int` (`0 ≤ n ≤ INT_MAX - 23`): on a
finite free list `duMalloc(n)` returns, it returns `NULL` exactly when no free-list
node has size at least `roundUp8(n) + H`, and then the state is the one before the
call. -/
theorem exhaustion_in_range (s : State) (L : List Int) (fuel : Nat) (n : Int)
    (hL : isList s s.freeListHead L) (hf : L.length < fuel)
    (h0 : 0 ≤ n) (h1 : n ≤ 2147483624) :
    ∃ s1 r, duMalloc fuel s n = some (s1, r) ∧
      (r = none ↔ ∀ a ∈ L, (s.heap a).size < roundUp8 n + sizeofHeader) ∧
      (r = none → s1 = s) := by
  rw [← neededBytes_eq n h0 h1]
  rcases first_fit_split s (neededBytes n) L with hall | ⟨pre, c, post, hLeq, hpre, hc⟩
  · exact ⟨s, none, duMalloc_no_fit s L fuel n hL hf hall, ⟨fun _ => hall, fun _ => rfl⟩,
      fun _ => rfl⟩
  · subst hLeq
    have hf2 : pre.length < fuel := by
      simp only [List.length_append, List.length_cons] at hf
      omega
    refine ⟨_, _, duMalloc_fit s pre post c fuel n hL hf2 hpre hc, ⟨?_, ?_⟩, ?_⟩
    · intro h; cases h
    · intro hall
      have := hall c (by simp)
      omega
    · intro h; cases h

/-- First fit where the needed bytes fit an `int` (`0 ≤ n ≤ INT_MAX - 23`): on a finite
free list `duMalloc(n)` returns, and a non-`NULL` result is the payload of the first
node in traversal order whose size is at least `neededBytes = roundUp8(n) + H`. -/
theorem first_fit_in_range (s : State) (L : List Int) (fuel : Nat) (n : Int)
    (hL : isList s s.freeListHead L) (hf : L.length < fuel)
    (h0 : 0 ≤ n) (h1 : n ≤ 2147483624) :
    ∃ s1 r, duMalloc fuel s n = some (s1, r) ∧
      ∀ p, r = some p →
        neededBytes n = roundUp8 n + sizeofHeader ∧
        ∃ pre post, L = pre ++ (p - sizeofHeader) :: post ∧
          (∀ a ∈ pre, (s.heap a).size < roundUp8 n + sizeofHeader) ∧
          roundUp8 n + sizeofHeader ≤ (s.heap (p - sizeofHeader)).size := by
  have hN := neededBytes_eq n h0 h1
  rcases first_fit_split s (neededBytes n) L with hall | ⟨pre, c, post, hLeq, hpre, hc⟩
  · refine ⟨s, none, duMalloc_no_fit s L fuel n hL hf hall, ?_⟩
    intro p hp; cases hp
  · subst hLeq
    have hf2 : pre.length < fuel := by
      simp only [List.length_append, List.length_cons] at hf
      omega
    refine ⟨_, _, duMalloc_fit s pre post c fuel n hL hf2 hpre hc, ?_⟩
    intro p hp
    have hpc : c + sizeofHeader = p := Option.some.inj hp
    have hcp : p - sizeofHeader = c := by omega
    rw [hcp, ← hN]
    exact ⟨rfl, pre, post, rfl, hpre, hc⟩

/-! ## The claims -/

/-- C1 (no overlap), evaluated at the inputs the claim names: after `duInitMalloc`, two
consecutive `duMalloc(992)` calls both succeed and both return offset 16, so the two
payload ranges `[16, 16 + 992)` are the same range and are not disjoint; and of 43
consecutive `duMalloc(8)` calls the last two both return offset 1000. -/
theorem C1_second_allocation_overlaps :
    (∃ s1 s2 : State,
      duMalloc 2 (duInitMalloc bootState) 992 = some (s1, some 16) ∧
      duMalloc 2 s1 992 = some (s2, some 16) ∧
      ¬ rangesDisjoint 16 992 16 992) ∧
    (match mallocs 3 8 43 (duInitMalloc bootState) with
      | none => none
      | some r => some (r.2.drop 41)) = some [some 1000, some 1000] ∧
    ¬ rangesDisjoint 1000 8 1000 8 := by
  refine ⟨⟨_, _, rfl, rfl, ?_⟩, rfl, ?_⟩
  · unfold rangesDisjoint
    decide
  · unfold rangesDisjoint
    decide

/-- C2 (detachment on success), evaluated where the found block is not split: after
`duInitMalloc`, `duMalloc(992)` returns offset 16 and the header at `16 - H = 0` is
still `freeListHead` in the resulting state, hence still a free-list node. -/
theorem C2_unsplit_block_stays_listed :
    ∃ s1 : State,
      duMalloc 2 (duInitMalloc bootState) 992 = some (s1, some 16) ∧
      s1.freeListHead = some (16 - sizeofHeader) ∧
      FreeNode s1 (16 - sizeofHeader) := by
  exact ⟨_, rfl, rfl, FreeNode.head rfl⟩

/-- C3 (free-list ordering), evaluated at the input the claim names: after
`duInitMalloc(); p = duMalloc(992); duFree(p)` the free-list node at offset 0 is its
own successor, so the consecutive pair `0 -> 0` is not strictly ascending. -/
theorem C3_release_breaks_ordering :
    ∃ s1 s2 : State,
      duMalloc 2 (duInitMalloc bootState) 992 = some (s1, some 16) ∧
      duFree 2 s1 16 = some s2 ∧
      FreeNode s2 0 ∧ (s2.heap 0).next = some 0 ∧ ¬ ((0 : Int) < 0) := by
  exact ⟨_, _, rfl, rfl, FreeNode.head rfl, rfl, by decide⟩

/-- C4 (round trip), evaluated at the input the claim names: after
`duInitMalloc(); p = duMalloc(8); duFree(p)` the free list is the block at offset 0
with size 8 followed by the block at offset 24 with size 984, and the size fields sum
to `992 = 1024 - 2H`, not to `1024 - H = 1008`, the capacity before the `duMalloc`. -/
theorem C4_round_trip_not_conserved :
    ∃ s1 s2 : State,
      duMalloc 3 (duInitMalloc bootState) 8 = some (s1, some 16) ∧
      duFree 3 s1 16 = some s2 ∧
      freeCapacity 3 (duInitMalloc bootState) = some 1008 ∧
      duMemoryDump 3 s2 = some [(0, 8), (24, 984)] ∧
      freeCapacity 3 s2 = some 992 ∧
      freeCapacity 3 s2 ≠ some (HEAP_SIZE - sizeofHeader) := by
  refine ⟨_, _, rfl, rfl, rfl, rfl, rfl, ?_⟩
  decide

/-- C4 (round trip), amended: on a state that satisfies the layout invariant (finite,
strictly ascending free list, footprints with non-negative sizes that do not overlap
and lie inside the arena), for every `int` request `n ≥ 1` for which `duMalloc(n)`
returns `p` after taking the split branch (the test of line 64 holds on the found
block), the following `duFree(p)` returns and the total free capacity is the capacity
before the `duMalloc` minus `H`: the header of the carved block is no longer counted. -/
theorem C4_round_trip_loses_header (s : State) (L : List Int) (fuel : Nat) (n : Int)
    (s1 : State) (p : Int)
    (hlay : Layout s L) (hf : L.length + 1 < fuel)
    (h1 : 1 ≤ n) (h2 : n ≤ 2147483647)
    (hm : duMalloc fuel s n = some (s1, some p))
    (htest : toULong (toULong (neededBytes n) + sizeofHeader) <
      toULong (s.heap (p - sizeofHeader)).size) :
    ∃ s2 t, duFree fuel s1 p = some s2 ∧ freeCapacity fuel s = some t ∧
      freeCapacity fuel s2 = some (t - sizeofHeader) := by
  obtain ⟨h2b, hsplit⟩ :=
    split_request_in_range s L fuel n s1 p hlay (by omega) h1 h2 hm htest
  have hint := (layout_sizes s L hlay).1
  obtain ⟨hL, hasc, hfp, _⟩ := hlay
  obtain ⟨pre, post, c, s2, hLeq, _, hfree, hL2, hrest, hc, hnew⟩ :=
    round_trip_shape s L fuel n s1 p hL hasc hfp hint hf h1 h2b hm hsplit
  subst hLeq
  have hlen2 : (pre ++ c :: (c + neededBytes n) :: post).length < fuel := by
    simp only [List.length_append, List.length_cons] at hf
    simp only [List.length_append, List.length_cons]
    omega
  refine ⟨s2, _, hfree, freeCapacity_of_isList s _ fuel hL (by omega), ?_⟩
  rw [freeCapacity_of_isList s2 _ fuel hL2 hlen2]
  congr 1
  have hmpre : pre.map (fun a => (s2.heap a).size) =
      pre.map (fun a => (s.heap a).size) := by
    refine List.map_congr_left ?_
    intro a ha
    simp only [hrest a (List.mem_append_left _ ha)]
  have hmpost : post.map (fun a => (s2.heap a).size) =
      post.map (fun a => (s.heap a).size) := by
    refine List.map_congr_left ?_
    intro a ha
    simp only [hrest a (List.mem_append_right _ ha)]
  simp only [List.map_append, List.map_cons, List.sum_append, List.sum_cons, hmpre, hmpost,
    hc, hnew]
  omega

/-- The amended C4 at `duInitMalloc(); p = duMalloc(8); duFree(p)`. -/
theorem C4_round_trip_loses_header_witness :
    ∃ s2 t, duFree 3 (splitBlock (duInitMalloc bootState) 0 none 24) 16 = some s2 ∧
      freeCapacity 3 (duInitMalloc bootState) = some t ∧
      freeCapacity 3 s2 = some (t - sizeofHeader) :=
  C4_round_trip_loses_header (duInitMalloc bootState) [0] 3 8
    (splitBlock (duInitMalloc bootState) 0 none 24) 16
    ⟨⟨rfl, rfl⟩, List.chain'_singleton 0, List.chain'_singleton 0,
      (by unfold InArena; decide)⟩
    (by decide) (by decide) (by decide) rfl (by decide)

/-- C5 (exhaustion), evaluated at a request larger than any free block: after
`duInitMalloc`, `duMalloc(2147483632)` returns offset 16 and not `NULL`, although the
only free-list node has size 1008, below `roundUp8(n) + H`: the sum
`size += sizeof(memoryBlockHeader)` does not fit the `int` and wraps to `INT_MIN`. -/
theorem C5_huge_request_not_refused :
    ∃ s1 : State,
      duMalloc 2 (duInitMalloc bootState) 2147483632 = some (s1, some 16) ∧
      isList (duInitMalloc bootState) (duInitMalloc bootState).freeListHead [0] ∧
      ∀ a ∈ [(0 : Int)],
        ((duInitMalloc bootState).heap a).size < roundUp8 2147483632 + sizeofHeader := by
  refine ⟨_, rfl, ⟨rfl, rfl⟩, ?_⟩
  decide

/-- C6 (first fit), evaluated at a request larger than any free block: after
`duInitMalloc`, `duMalloc(2147483632)` returns offset 16 although the header at
`16 - H = 0` has size 1008, below `roundUp8(n) + H`; the needed bytes the code
computes have wrapped and are not `roundUp8(n) + H`. -/
theorem C6_huge_request_takes_small_block :
    ∃ s1 : State,
      duMalloc 2 (duInitMalloc bootState) 2147483632 = some (s1, some 16) ∧
      ¬ (roundUp8 2147483632 + sizeofHeader ≤
          ((duInitMalloc bootState).heap (16 - sizeofHeader)).size) ∧
      neededBytes 2147483632 ≠ roundUp8 2147483632 + sizeofHeader := by
  refine ⟨_, rfl, ?_, ?_⟩ <;> decide

/-- C8 (alignment): in every state reached from `duInitMalloc` by `duMalloc` calls
with a request in `[1, HEAP_SIZE - H]` and `duFree` calls on pointers `duMalloc`
returned, every free-list node sits at an arena offset that is a multiple of 8, and
so does every non-`NULL` pointer `duMalloc` has returned. -/
theorem C8_alignment (s : State) (R : List Int)
    (h : Reach 1 (HEAP_SIZE - sizeofHeader) s R) :
    (∀ a, FreeNode s a → a % 8 = 0) ∧ (∀ p ∈ R, p % 8 = 0) := by
  have hinv := reach_aligned 1 (HEAP_SIZE - sizeofHeader) s R h
  exact ⟨fun a ha => freeNode_aligned s hinv.1 a ha, hinv.2⟩

/-- C8 at the state reached by `duInitMalloc(); duMalloc(8)`. -/
theorem C8_alignment_witness :
    (∀ a, FreeNode (splitBlock (duInitMalloc bootState) 0 none 24) a → a % 8 = 0) ∧
    (∀ p ∈ [(16 : Int)], p % 8 = 0) :=
  C8_alignment (splitBlock (duInitMalloc bootState) 0 none 24) [16]
    (Reach.malloc 2 8 16 (Reach.init bootState) (by decide) (by decide) rfl)

/-- C9 (init postcondition): from any prior state, `duInitMalloc` leaves
`freeListHead` at offset 0, the header there with size `HEAP_SIZE - H = 1008` and next
`NULL`, every other header view of the arena zero (size 0, next `NULL`), a free list of
exactly one node, and a second call changes nothing. -/
theorem C9_init_postcondition (s : State) :
    (duInitMalloc s).freeListHead = some 0 ∧
    ((duInitMalloc s).heap 0).size = HEAP_SIZE - sizeofHeader ∧
    ((duInitMalloc s).heap 0).size = 1008 ∧
    ((duInitMalloc s).heap 0).next = none ∧
    (∀ a : Int, a ≠ 0 →
      ((duInitMalloc s).heap a).size = 0 ∧ ((duInitMalloc s).heap a).next = none) ∧
    isList (duInitMalloc s) (duInitMalloc s).freeListHead [0] ∧
    (∀ a : Int, FreeNode (duInitMalloc s) a ↔ a = 0) ∧
    duMemoryDump 2 (duInitMalloc s) = some [(0, 1008)] ∧
    duInitMalloc (duInitMalloc s) = duInitMalloc s := by
  refine ⟨rfl, rfl, rfl, rfl, ?_, ⟨rfl, rfl⟩, ?_, rfl, rfl⟩
  · intro a ha
    rw [init_size, init_next]
    simp [ha]
  · intro a
    constructor
    · intro h
      induction h with
      | head h0 => rw [init_head] at h0; exact (Option.some.inj h0).symm
      | step _ h1 _ => rw [init_next] at h1; cases h1
    · intro h
      subst h
      exact FreeNode.head rfl

/-- C10 (finiteness), evaluated at the input the claim names: after
`duInitMalloc(); p = duMalloc(992); duFree(p)` the node at offset 0 points to itself,
so the walk from `freeListHead` never reaches `NULL`: no finite list describes the
free list and `duMemoryDump` does not finish with any amount of fuel. -/
theorem C10_release_makes_cycle :
    ∃ s1 s2 : State,
      duMalloc 2 (duInitMalloc bootState) 992 = some (s1, some 16) ∧
      duFree 2 s1 16 = some s2 ∧
      s2.freeListHead = some 0 ∧ (s2.heap 0).next = some 0 ∧
      (∀ fuel : Nat, duMemoryDump fuel s2 = none) ∧
      (∀ L : List Int, ¬ isList s2 s2.freeListHead L) := by
  refine ⟨_, _, rfl, rfl, rfl, rfl, ?_, ?_⟩
  · intro fuel
    exact dumpLoop_self_loop _ 0 rfl fuel
  · intro L
    exact not_isSeg_self_loop _ 0 rfl L

/-- C11 (split postcondition), at a state with a finite free list whose blocks
overlap: in `overlapState` the free list is `0 -> 24`, the first fitting node for
`duMalloc(8)` is the one at offset 0 and its size 1008 exceeds `neededBytes + H = 40`;
the call returns offset 16, but the new header lands on the free-list node at offset
24, whose size changes from 100 to 984 and whose `next` becomes itself, so the free
list is no longer finite. -/
theorem C11_split_onto_free_node :
    ∃ s1 : State,
      isList overlapState overlapState.freeListHead [0, 24] ∧
      neededBytes 8 = roundUp8 8 + sizeofHeader ∧
      neededBytes 8 + sizeofHeader < (overlapState.heap 0).size ∧
      duMalloc 3 overlapState 8 = some (s1, some 16) ∧
      (overlapState.heap 24).size = 100 ∧ (s1.heap 24).size = 984 ∧
      (s1.heap 24).next = some 24 ∧
      (∀ L : List Int, ¬ isList s1 s1.freeListHead L) := by
  refine ⟨_, ⟨rfl, rfl, rfl⟩, by decide, by decide, rfl, rfl, rfl, rfl, ?_⟩
  intro L
  exact not_isSeg_self_loop _ 24 rfl L

/-- C11 (split postcondition), amended to states that satisfy the layout invariant
(finite, strictly ascending free list `pre ++ a :: post`, footprints with non-negative
sizes that do not overlap and lie inside the arena): for `n ≥ 0` with rounded size
`R` (the least multiple of 8 at least `n`), when `a` is the first node of size at
least `R + H` and its size `S` exceeds `R + 2H`, `duMalloc(n)` returns `a + H`; the
new header at `a + R + H` has size `S - (R + H)` and the old successor as `next`; the
size of `a` is `R`; the predecessor's `next` (or `freeListHead`) points to the new
header; the other free-list nodes keep their fields, and the free list is `pre`, the
new header, `post`: as many nodes as before. -/
theorem C11_split_postcondition (s : State) (pre post : List Int) (a : Int) (fuel : Nat)
    (n R : Int)
    (hlay : Layout s (pre ++ a :: post))
    (hf : (pre ++ a :: post).length < fuel)
    (h0 : 0 ≤ n) (hR8 : R % 8 = 0) (hRlo : n ≤ R) (hRhi : R < n + 8)
    (hpre : ∀ b ∈ pre, (s.heap b).size < R + sizeofHeader)
    (hsplit : R + sizeofHeader + sizeofHeader < (s.heap a).size) :
    roundUp8 n = R ∧ neededBytes n = R + sizeofHeader ∧
    ∃ s1, duMalloc fuel s n = some (s1, some (a + sizeofHeader)) ∧
      (s1.heap (a + (R + sizeofHeader))).size = (s.heap a).size - (R + sizeofHeader) ∧
      (s1.heap (a + (R + sizeofHeader))).next = (s.heap a).next ∧
      (s.heap a).next = post.head? ∧
      (s1.heap a).size = R ∧
      (match pre.getLast? with
        | none => s1.freeListHead = some (a + (R + sizeofHeader))
        | some q => s1.freeListHead = s.freeListHead ∧
            (s1.heap q).next = some (a + (R + sizeofHeader))) ∧
      (∀ b ∈ pre ++ post, (s1.heap b).size = (s.heap b).size ∧
        (pre.getLast? ≠ some b → (s1.heap b).next = (s.heap b).next)) ∧
      isList s1 s1.freeListHead (pre ++ (a + (R + sizeofHeader)) :: post) ∧
      (pre ++ (a + (R + sizeofHeader)) :: post).length = (pre ++ a :: post).length ∧
      Layout s1 (pre ++ (a + (R + sizeofHeader)) :: post) := by
  have hint := (layout_sizes s _ hlay).1
  have hlay0 := hlay
  obtain ⟨hL, hasc, hfp, _⟩ := hlay
  have hnew : a + (R + sizeofHeader) ∉ pre ++ post := by
    have hH : sizeofHeader = 16 := rfl
    have hpl := (ascending_parts pre post a hasc).1
    have hfoot := footprint_next s pre post a hfp hasc
    intro h
    rcases List.mem_append.mp h with h | h
    · have := hpl _ h
      omega
    · have := hfoot _ h
      omega
  have hH : sizeofHeader = 16 := rfl
  have hSint := hint a (by simp)
  have hR : roundUp8 n = R := by
    simp only [roundUp8, toInt]
    omega
  have hN : neededBytes n = R + sizeofHeader := by
    simp only [neededBytes, hR, toInt, toULong, sizeofHeader]
    omega
  refine ⟨hR, hN, ?_⟩
  have hf2 : pre.length < fuel := by
    simp only [List.length_append, List.length_cons] at hf
    omega
  have hm := duMalloc_fit s pre post a fuel n hL hf2 (by rw [hN]; exact hpre)
    (by rw [hN]; omega)
  rw [hN] at hm
  have htest : toULong (toULong (R + sizeofHeader) + sizeofHeader) <
      toULong (s.heap a).size := by
    simp only [toULong, sizeofHeader]
    omega
  rw [if_pos htest] at hm
  have hnd := isList_nodup s _ _ hL
  have hapre : a ∉ pre := fun h =>
    (List.nodup_append.mp hnd).2.2 h (List.mem_cons_self a post)
  have hapost : a ∉ post := (List.nodup_cons.mp (List.nodup_append.mp hnd).2.1).1
  have hnewpre : a + (R + sizeofHeader) ∉ pre := fun h => hnew (List.mem_append_left _ h)
  have hnewpost : a + (R + sizeofHeader) ∉ post := fun h => hnew (List.mem_append_right _ h)
  have hnewa : a + (R + sizeofHeader) ≠ a := by omega
  have hnew2 : a + (R + sizeofHeader) ∉ pre ++ a :: post := by
    intro h
    rcases List.mem_append.mp h with h | h
    · exact hnewpre h
    · rcases List.mem_cons.mp h with h | h
      · exact hnewa h
      · exact hnewpost h
  have hlast : lastPtr none pre = pre.getLast? := by
    rw [lastPtr_getLast]
    cases pre.getLast? <;> rfl
  have hlastnew : ¬ lastPtr none pre = some (a + (R + sizeofHeader)) :=
    fun e => hnewpre (lastPtr_none_mem pre _ e)
  have hlasta : ¬ lastPtr none pre = some a := fun e => hapre (lastPtr_none_mem pre _ e)
  obtain ⟨m, _, hm2⟩ := (isSeg_append s pre (a :: post) _ none).mp hL
  refine ⟨_, hm, ?_, ?_, isSeg_head s post _ hm2.2, ?_, ?_, ?_,
    isList_splitBlock s pre post a _ hL hnd hnew2, ?_,
    layout_splitBlock s pre post a _ hlay0 (by omega) (by omega)⟩
  · rw [splitBlock_size, if_neg hnewa, if_pos rfl]
    simp only [toInt, sizeofHeader]
    omega
  · rw [splitBlock_next, if_neg hlastnew, if_neg hnewa, if_pos rfl]
  · rw [splitBlock_size, if_pos rfl]
    simp only [toInt, toULong, sizeofHeader]
    omega
  · rw [← hlast]
    cases hq : lastPtr none pre with
    | none =>
      show (splitBlock s a none (R + sizeofHeader)).freeListHead = _
      rw [splitBlock_head, if_pos rfl]
    | some q =>
      show (splitBlock s a (some q) (R + sizeofHeader)).freeListHead = _ ∧
        ((splitBlock s a (some q) (R + sizeofHeader)).heap q).next = _
      rw [splitBlock_head, splitBlock_next, if_pos rfl]
      refine ⟨?_, rfl⟩
      rw [if_neg]
      intro e
      cases e
  · intro b hb
    have hba : b ≠ a := by
      intro e
      rcases List.mem_append.mp hb with h | h
      · exact hapre (e ▸ h)
      · exact hapost (e ▸ h)
    have hbn : b ≠ a + (R + sizeofHeader) := fun e => hnew (e ▸ hb)
    refine ⟨?_, ?_⟩
    · rw [splitBlock_size, if_neg hba, if_neg hbn]
    · intro hq
      rw [← hlast] at hq
      rw [splitBlock_next, if_neg hq, if_neg hba, if_neg hbn]
  · simp only [List.length_append, List.length_cons]

/-- The amended C11 at the scenario of the claim: `duInitMalloc(); duMalloc(8)`
returns offset `H = 16` and leaves exactly one free block, at offset `8 + H = 24`, of
size `1024 - 2H - 8 = 984`. -/
theorem C11_split_postcondition_witness :
    ∃ s1, duMalloc 2 (duInitMalloc bootState) 8 = some (s1, some 16) ∧
      isList s1 s1.freeListHead [24] ∧ (s1.heap 24).size = 984 ∧
      (s1.heap 24).next = none ∧ (s1.heap 0).size = 8 := by
  obtain ⟨_, _, s1, h1, h2, h3, _, h4, _, _, h5, _⟩ :=
    C11_split_postcondition (duInitMalloc bootState) [] [] 0 2 8 8
      ⟨⟨rfl, rfl⟩, List.chain'_singleton 0, List.chain'_singleton 0,
        (by unfold InArena; decide)⟩
      (by decide) (by decide) (by decide) (by decide) (by decide)
      (by intro b hb; cases hb) (by decide)
  exact ⟨s1, h1, h5, h2, h3, h4⟩

/-- C12 (release insertion): on a finite, strictly ascending free list and for a
pointer `p` whose header `h = p - H` is not a free-list node, `duFree(p)` returns and
leaves a strictly ascending free list made of the old nodes plus `h`: the old nodes
below `h` (`pre`), then `h`, then the old nodes above `h` (`post`); `h.next` is the
first node of `post` (`NULL` if there is none) and the predecessor of `h` is the
last node of `pre` (`freeListHead` is `h` if there is none). -/
theorem C12_release_insertion (s : State) (L : List Int) (fuel : Nat) (p : Int)
    (hL : isList s s.freeListHead L) (hasc : Ascending L) (hf : L.length < fuel)
    (hp : p - sizeofHeader ∉ L) :
    ∃ s1 pre post, duFree fuel s p = some s1 ∧ L = pre ++ post ∧
      (∀ a ∈ pre, a < p - sizeofHeader) ∧ (∀ c ∈ post, p - sizeofHeader < c) ∧
      isList s1 s1.freeListHead (pre ++ (p - sizeofHeader) :: post) ∧
      Ascending (pre ++ (p - sizeofHeader) :: post) ∧
      (∀ a, a ∈ pre ++ (p - sizeofHeader) :: post ↔ a = p - sizeofHeader ∨ a ∈ L) ∧
      (s1.heap (p - sizeofHeader)).next = post.head? ∧
      (match pre.getLast? with
        | none => s1.freeListHead = some (p - sizeofHeader)
        | some q => s1.freeListHead = s.freeListHead ∧
            (s1.heap q).next = some (p - sizeofHeader)) := by
  obtain ⟨pre, post, hsplit, hpre, hpost⟩ := below_split (p - sizeofHeader) L
  subst hsplit
  have hf2 : pre.length < fuel := by
    simp only [List.length_append] at hf
    omega
  have hpp : p = (p - sizeofHeader) + sizeofHeader := by omega
  have hfree := duFree_insert s pre post (p - sizeofHeader) fuel hL hf2 hpre hpost
  rw [← hpp] at hfree
  obtain ⟨habove, hasc1⟩ := ascending_insert pre post (p - sizeofHeader) hasc hp hpre hpost
  have hnd := isList_nodup s _ _ hL
  have hlast : lastPtr none pre = pre.getLast? := by
    rw [lastPtr_getLast]
    cases pre.getLast? <;> rfl
  have hbpre : p - sizeofHeader ∉ pre := fun h => hp (List.mem_append_left _ h)
  refine ⟨_, pre, post, hfree, rfl, hpre, habove,
    isList_freeResult s pre post _ hL hnd hp, hasc1, ?_, ?_, ?_⟩
  · intro a
    simp only [List.mem_append, List.mem_cons]
    tauto
  · rw [freeResult_next]
    have : ¬ lastPtr none pre = some (p - sizeofHeader) :=
      fun e => hbpre (lastPtr_none_mem pre _ e)
    rw [if_neg this, if_pos rfl]
  · rw [← hlast]
    cases hq : lastPtr none pre with
    | none =>
      show (freeResult s pre post (p - sizeofHeader)).freeListHead = _
      rw [freeResult_head, if_pos hq]
    | some q =>
      show (freeResult s pre post (p - sizeofHeader)).freeListHead = _ ∧ _
      rw [freeResult_head, freeResult_next, if_pos hq]
      refine ⟨?_, rfl⟩
      rw [if_neg]
      rw [hq]
      intro e
      cases e

/-- C12 at `duInitMalloc(); p = duMalloc(8); duFree(p)`: the header at offset 0 goes
back in front of the free block at offset 24. -/
theorem C12_release_insertion_witness :
    ∃ s1 pre post,
      duFree 2 (splitBlock (duInitMalloc bootState) 0 none 24) 16 = some s1 ∧
      [(24 : Int)] = pre ++ post ∧
      (∀ a ∈ pre, a < 16 - sizeofHeader) ∧ (∀ c ∈ post, 16 - sizeofHeader < c) ∧
      isList s1 s1.freeListHead (pre ++ (16 - sizeofHeader) :: post) ∧
      Ascending (pre ++ (16 - sizeofHeader) :: post) ∧
      (∀ a, a ∈ pre ++ (16 - sizeofHeader) :: post ↔ a = 16 - sizeofHeader ∨ a ∈ [(24 : Int)]) ∧
      (s1.heap (16 - sizeofHeader)).next = post.head? ∧
      (match pre.getLast? with
        | none => s1.freeListHead = some (16 - sizeofHeader)
        | some q => s1.freeListHead =
              (splitBlock (duInitMalloc bootState) 0 none 24).freeListHead ∧
            (s1.heap q).next = some (16 - sizeofHeader)) :=
  C12_release_insertion (splitBlock (duInitMalloc bootState) 0 none 24) [24] 2 16
    ⟨rfl, rfl⟩ (List.chain'_singleton 24) (by decide) (by decide)

/-- C13 (release frame), run on the words of the arena (placed at address 4214912)
where the freed header shares bytes with a free-list node: after `duInitMalloc()` the
free list is the one header at offset 0, and `duFree(heap + 24)` frees the header at
offset 8; the store `prev->next = blockToFree` into the header at offset 0 writes the
bytes `[8, 16)`, which hold the size field of the freed header: it changes from 0 to
4214920. -/
theorem C13_release_overwrites_size :
    ∃ w1 : WordState,
      (duInitMallocWords 4214912 bootWords).freeListHead = 4214912 ∧
      readSize (duInitMallocWords 4214912 bootWords) 0 = 1008 ∧
      readNext (duInitMallocWords 4214912 bootWords) 0 = 0 ∧
      duFreeWords 4214912 2 (duInitMallocWords 4214912 bootWords) (4214912 + 24) = some w1 ∧
      readSize (duInitMallocWords 4214912 bootWords) (24 - 16) = 0 ∧
      readSize w1 (24 - 16) = 4214920 ∧
      readNext w1 0 = 4214912 + 8 ∧ readNext w1 (24 - 16) = 0 ∧
      w1.freeListHead = 4214912 := by
  exact ⟨_, rfl, rfl, rfl, rfl, rfl, rfl, rfl, rfl, rfl⟩

/-- C13 (release frame, no coalescing), amended to headers that share no byte: on a
finite free list whose headers lie inside the arena and are pairwise apart, and for a
pointer `p` whose header `h = p - H` lies inside the arena and is a free-list node or
apart from every free-list node, `duFree(p)` returns; it changes the size field of no
header that is `h`, a free-list node, or apart from them; it changes the `next` field
of no such header other than `h` and, unless it changes `freeListHead`, one free-list
node; when `h` was not a free-list node the free list afterwards is the old one plus
`h`, one node longer, its headers still inside the arena and pairwise apart, so a free
neighbour that is physically adjacent to the freed block stays a separate node with
its size unchanged. -/
theorem C13_release_frame (s : State) (L : List Int) (fuel : Nat) (p : Int)
    (hL : isList s s.freeListHead L) (hf : L.length < fuel)
    (harena : ∀ a ∈ L, HeaderInArena a) (hapart : L.Pairwise HeadersApart)
    (hp : HeaderInArena (p - sizeofHeader))
    (hsep : ∀ a ∈ L, a = p - sizeofHeader ∨ HeadersApart a (p - sizeofHeader)) :
    ∃ s1, duFree fuel s p = some s1 ∧
      (∀ a, (a = p - sizeofHeader ∨ HeadersApart a (p - sizeofHeader)) →
        (∀ b ∈ L, a = b ∨ HeadersApart a b) → (s1.heap a).size = (s.heap a).size) ∧
      ((s1.freeListHead = s.freeListHead ∧
          ∃ q ∈ L, ∀ a, (a = p - sizeofHeader ∨ HeadersApart a (p - sizeofHeader)) →
            (∀ b ∈ L, a = b ∨ HeadersApart a b) → a ≠ p - sizeofHeader → a ≠ q →
            (s1.heap a).next = (s.heap a).next) ∨
        (∀ a, (a = p - sizeofHeader ∨ HeadersApart a (p - sizeofHeader)) →
          (∀ b ∈ L, a = b ∨ HeadersApart a b) → a ≠ p - sizeofHeader →
          (s1.heap a).next = (s.heap a).next)) ∧
      (p - sizeofHeader ∉ L →
        ∃ L1, isList s1 s1.freeListHead L1 ∧ L1.length = L.length + 1 ∧
          (∀ a, a ∈ L1 ↔ a = p - sizeofHeader ∨ a ∈ L) ∧
          (∀ a ∈ L1, HeaderInArena a) ∧ L1.Pairwise HeadersApart ∧
          ∀ b ∈ L,
            (p - sizeofHeader + sizeofHeader + (s.heap (p - sizeofHeader)).size = b ∨
              b + sizeofHeader + (s.heap b).size = p - sizeofHeader) →
            b ∈ L1 ∧ p - sizeofHeader ∈ L1 ∧ b ≠ p - sizeofHeader ∧
              (s1.heap b).size = (s.heap b).size ∧
              (s1.heap (p - sizeofHeader)).size = (s.heap (p - sizeofHeader)).size) := by
  obtain ⟨s1, hfree, hsize, hnext, hcount⟩ := duFree_frame s L fuel p hL hf
  refine ⟨s1, hfree, fun a _ _ => hsize a, ?_, ?_⟩
  · rcases hnext with ⟨hh, q, hq, hrest⟩ | hrest
    · exact Or.inl ⟨hh, q, hq, fun a _ _ ha haq => hrest a ha haq⟩
    · exact Or.inr (fun a _ _ ha => hrest a ha)
  · intro hnot
    obtain ⟨L1, hL1, hlen, hmem, hpw, hadj⟩ := hcount hnot
    have hall : ∀ a ∈ L, HeadersApart a (p - sizeofHeader) := by
      intro a ha
      rcases hsep a ha with e | h
      · exact absurd (e ▸ ha) hnot
      · exact h
    refine ⟨L1, hL1, hlen, hmem, ?_, hpw hapart hall, hadj⟩
    intro a ha
    rcases (hmem a).mp ha with e | h
    · rw [e]; exact hp
    · exact harena a h

/-- The amended C13 at `duInitMalloc(); p = duMalloc(8); duFree(p)`: the freed block
`[0, 24)` is adjacent to the free block at offset 24, and both stay on the list with
their sizes. -/
theorem C13_release_frame_witness :
    ∃ s1, duFree 2 (splitBlock (duInitMalloc bootState) 0 none 24) 16 = some s1 ∧
      (s1.heap 0).size = 8 ∧ (s1.heap 24).size = 984 ∧
      ∃ L1, isList s1 s1.freeListHead L1 ∧ L1.length = 2 ∧
        (∀ a, a ∈ L1 ↔ a = 0 ∨ a = 24) ∧ L1.Pairwise HeadersApart := by
  obtain ⟨s1, h1, h2, _, h4⟩ :=
    C13_release_frame (splitBlock (duInitMalloc bootState) 0 none 24) [24] 2 16
      ⟨rfl, rfl⟩ (by decide)
      (by intro a ha
          rcases List.mem_cons.mp ha with rfl | h
          · unfold HeaderInArena; decide
          · cases h)
      (List.pairwise_singleton _ _)
      (by unfold HeaderInArena; decide)
      (by intro a ha
          rcases List.mem_cons.mp ha with rfl | h
          · right; unfold HeadersApart; decide
          · cases h)
  obtain ⟨L1, hL1, hlen, hmem, _, hpw, _⟩ := h4 (by decide)
  have hs0 := h2 0 (Or.inl (by decide))
    (by intro b hb
        rcases List.mem_cons.mp hb with rfl | h
        · right; unfold HeadersApart; decide
        · cases h)
  have hs24 := h2 24 (Or.inr (by unfold HeadersApart; decide))
    (by intro b hb
        rcases List.mem_cons.mp hb with rfl | h
        · left; rfl
        · cases h)
  refine ⟨s1, h1, by rw [hs0]; rfl, by rw [hs24]; rfl, L1, hL1, hlen, ?_, hpw⟩
  intro a
  rw [hmem a]
  have h16 : (16 : Int) - sizeofHeader = 0 := by decide
  rw [h16]
  simp

/-- C14 (positive free payload): in every state reached from `duInitMalloc` by
`duMalloc` calls with an `int` request `n ≥ 1` and `duFree` calls on pointers
`duMalloc` returned, every free-list node has a positive size; and when a `duMalloc`
call in such a state takes the split branch on a block of size `S`, then
`S > neededBytes + H` and the free block the split creates has size
`S - neededBytes`, which exceeds `H`. -/
theorem C14_positive_free_payload (s : State) (R : List Int)
    (h : Reach 1 2147483647 s R) :
    (∀ a, FreeNode s a → 0 < (s.heap a).size) ∧
    (∀ (fuel : Nat) (n : Int) (s1 : State) (p : Int),
      1 ≤ n → n ≤ 2147483647 → duMalloc fuel s n = some (s1, some p) →
      toULong (toULong (neededBytes n) + sizeofHeader) <
        toULong (s.heap (p - sizeofHeader)).size →
      neededBytes n + sizeofHeader < (s.heap (p - sizeofHeader)).size ∧
      (s1.heap (p - sizeofHeader + neededBytes n)).size =
        (s.heap (p - sizeofHeader)).size - neededBytes n ∧
      sizeofHeader < (s1.heap (p - sizeofHeader + neededBytes n)).size) := by
  have hpos := (reach_positive s R h).1
  refine ⟨fun a ha => freeNode_positive s hpos a ha, ?_⟩
  intro fuel n s1 p hn1 hn2 hm htest
  have hH : sizeofHeader = 16 := rfl
  obtain ⟨_, prev1, hs1⟩ := mallocLoop_result _ fuel s _ _ s1 p hm
  rw [if_pos htest] at hs1
  have hS := hpos.1 (p - sizeofHeader)
  have ht := (split_test_iff _ _ hS.1 hS.2 (neededBytes_cases n hn1 hn2)
    (neededBytes_lower n)).mp htest
  have hsz : (s1.heap (p - sizeofHeader + neededBytes n)).size =
      (s.heap (p - sizeofHeader)).size - neededBytes n := by
    rw [hs1, splitBlock_size, if_neg (by omega), if_pos rfl]
    simp only [toInt]
    omega
  refine ⟨ht.2, hsz, ?_⟩
  rw [hsz]
  omega

/-- C14 at the state reached by `duInitMalloc(); duMalloc(8)`. -/
theorem C14_positive_free_payload_witness :
    (∀ a, FreeNode (splitBlock (duInitMalloc bootState) 0 none 24) a →
      0 < ((splitBlock (duInitMalloc bootState) 0 none 24).heap a).size) ∧
    (∀ (fuel : Nat) (n : Int) (s1 : State) (p : Int),
      1 ≤ n → n ≤ 2147483647 →
      duMalloc fuel (splitBlock (duInitMalloc bootState) 0 none 24) n = some (s1, some p) →
      toULong (toULong (neededBytes n) + sizeofHeader) <
        toULong ((splitBlock (duInitMalloc bootState) 0 none 24).heap (p - sizeofHeader)).size →
      neededBytes n + sizeofHeader <
        ((splitBlock (duInitMalloc bootState) 0 none 24).heap (p - sizeofHeader)).size ∧
      (s1.heap (p - sizeofHeader + neededBytes n)).size =
        ((splitBlock (duInitMalloc bootState) 0 none 24).heap (p - sizeofHeader)).size -
          neededBytes n ∧
      sizeofHeader < (s1.heap (p - sizeofHeader + neededBytes n)).size) :=
  C14_positive_free_payload (splitBlock (duInitMalloc bootState) 0 none 24) [16]
    (Reach.malloc 2 8 16 (Reach.init bootState) (by decide) (by decide) rfl)

/-- C15 (rounding), at the largest request the claim admits: for `n = INT_MAX - 7`
the rounded size is `n` itself, and the needed bytes the code stores in its `int`
are `-2147483640`, not the rounded size plus `H`. -/
theorem C15_needed_bytes_wrap :
    (0 : Int) ≤ 2147483640 ∧ (2147483640 : Int) ≤ 2147483647 - 7 ∧
    roundUp8 2147483640 = 2147483640 ∧
    neededBytes 2147483640 = -2147483640 ∧
    neededBytes 2147483640 ≠ roundUp8 2147483640 + sizeofHeader := by
  decide

/-- C15 (rounding), amended in its last part: for `0 ≤ n ≤ INT_MAX - 7` the expression
`(n + 7) & ~7` of `duMalloc` is the least multiple of 8 that is at least `n` (so it
is `n` when `n` is a multiple of 8, and it is below `n + 8`); the needed bytes are
that value plus `H` for `n ≤ INT_MAX - 23`. -/
theorem C15_rounding (n : Int) (h0 : 0 ≤ n) (h1 : n ≤ 2147483647 - 7) :
    roundUp8 n = Int.land (n + 7) (Int.lnot 7) ∧
    roundUp8 n % 8 = 0 ∧ n ≤ roundUp8 n ∧
    (∀ m : Int, m % 8 = 0 → n ≤ m → roundUp8 n ≤ m) ∧
    (n % 8 = 0 → roundUp8 n = n) ∧
    roundUp8 n < n + 8 ∧
    (n ≤ 2147483647 - 23 → neededBytes n = roundUp8 n + sizeofHeader) := by
  have hb := roundUp8_bounds n h0 (by omega)
  have ht : toInt (n + 7) = n + 7 := by
    simp only [toInt]
    omega
  refine ⟨?_, hb.2.2, hb.1, ?_, ?_, hb.2.1, ?_⟩
  · rw [roundUp8_eq_land, ht]
  · intro m hm hnm
    omega
  · intro hn
    omega
  · intro hn
    exact neededBytes_eq n h0 (by omega)

/-- The amended C15 at `n = 13`. -/
theorem C15_rounding_witness :
    roundUp8 13 = Int.land (13 + 7) (Int.lnot 7) ∧
    roundUp8 13 % 8 = 0 ∧ (13 : Int) ≤ roundUp8 13 ∧
    (∀ m : Int, m % 8 = 0 → 13 ≤ m → roundUp8 13 ≤ m) ∧
    ((13 : Int) % 8 = 0 → roundUp8 13 = 13) ∧
    roundUp8 13 < 13 + 8 ∧
    ((13 : Int) ≤ 2147483647 - 23 → neededBytes 13 = roundUp8 13 + sizeofHeader) :=
  C15_rounding 13 (by decide) (by decide)

/-- C16 (zero-size request is not rejected): for a request `n` in `[-7, 0]`,
`duInitMalloc()` followed by `duMalloc(n)` returns the payload pointer at offset `H`
of the block at offset 0, whose size field is then 0; the new free header, of size
`HEAP_SIZE - 2H`, is carved at that same offset `H` and is the head (and only node)
of the free list. -/
theorem C16_zero_size_request (s0 : State) (n : Int) (h0 : -7 ≤ n) (h1 : n ≤ 0) :
    ∃ s1, duMalloc 2 (duInitMalloc s0) n = some (s1, some sizeofHeader) ∧
      (s1.heap 0).size = 0 ∧
      s1.freeListHead = some sizeofHeader ∧
      (s1.heap sizeofHeader).size = HEAP_SIZE - 2 * sizeofHeader ∧
      (s1.heap sizeofHeader).next = none ∧
      isList s1 s1.freeListHead [sizeofHeader] := by
  have hN : neededBytes n = 16 := by
    simp only [neededBytes, roundUp8, toInt, toULong, sizeofHeader]
    omega
  refine ⟨splitBlock (duInitMalloc s0) 0 none 16, ?_, rfl, rfl, rfl, rfl, ⟨rfl, rfl⟩⟩
  unfold duMalloc
  rw [hN]
  rfl

/-- C16 at `n = 0`. -/
theorem C16_zero_size_request_witness :
    ∃ s1, duMalloc 2 (duInitMalloc bootState) 0 = some (s1, some sizeofHeader) ∧
      (s1.heap 0).size = 0 ∧
      s1.freeListHead = some sizeofHeader ∧
      (s1.heap sizeofHeader).size = HEAP_SIZE - 2 * sizeofHeader ∧
      (s1.heap sizeofHeader).next = none ∧
      isList s1 s1.freeListHead [sizeofHeader] :=
  C16_zero_size_request bootState 0 (by decide) (by decide)

/-- C17 (the fit test counts the header twice): right after `duInitMalloc`, for a
request `n` in `[1, HEAP_SIZE - H]`, `duMalloc(n)` returns, and it returns `NULL`
exactly when `roundUp8(n) + H > HEAP_SIZE - H`, that is exactly when `n > 992`; so
`duMalloc(HEAP_SIZE - H)` fails and `HEAP_SIZE - 2H` is the largest request served. -/
theorem C17_fit_counts_header_twice (s0 : State) (n : Int)
    (h1 : 1 ≤ n) (h2 : n ≤ HEAP_SIZE - sizeofHeader) :
    ∃ s1 r, duMalloc 2 (duInitMalloc s0) n = some (s1, r) ∧
      (r = none ↔ HEAP_SIZE - sizeofHeader < roundUp8 n + sizeofHeader) ∧
      (r = none ↔ HEAP_SIZE - 2 * sizeofHeader < n) := by
  have h2b : n ≤ 1008 := by simpa [HEAP_SIZE, sizeofHeader] using h2
  have hN := neededBytes_eq n (by omega) (by omega)
  have hr := roundUp8_bounds n (by omega) (by omega)
  have hL : isList (duInitMalloc s0) (duInitMalloc s0).freeListHead [0] := ⟨rfl, rfl⟩
  have hs : ((duInitMalloc s0).heap 0).size = 1008 := rfl
  have hH : sizeofHeader = 16 := rfl
  have hHS : HEAP_SIZE = 1024 := rfl
  by_cases hfit : neededBytes n ≤ ((duInitMalloc s0).heap 0).size
  · refine ⟨_, _, duMalloc_fit (duInitMalloc s0) [] [] 0 2 n hL (by decide)
      (by intro a ha; cases ha) hfit, ⟨?_, ?_⟩, ⟨?_, ?_⟩⟩
    · intro h; cases h
    · intro h; omega
    · intro h; cases h
    · intro h; omega
  · refine ⟨_, _, duMalloc_no_fit (duInitMalloc s0) [0] 2 n hL (by decide) ?_,
      ⟨fun _ => ?_, fun _ => rfl⟩, ⟨fun _ => ?_, fun _ => rfl⟩⟩
    · intro a ha
      rcases List.mem_cons.mp ha with rfl | h
      · omega
      · cases h
    · omega
    · omega

/-- C17 at the request `HEAP_SIZE - H = 1008`, which is refused. -/
theorem C17_fit_counts_header_twice_witness :
    ∃ s1 r, duMalloc 2 (duInitMalloc bootState) 1008 = some (s1, r) ∧
      (r = none ↔ HEAP_SIZE - sizeofHeader < roundUp8 1008 + sizeofHeader) ∧
      (r = none ↔ HEAP_SIZE - 2 * sizeofHeader < 1008) :=
  C17_fit_counts_header_twice bootState 1008 (by decide) (by decide)

/-- C18 (allocate preserves the layout invariant): when the free list is finite,
strictly ascending, with footprints that end at or before the next node and lie
inside `[0, HEAP_SIZE)`, then for every `int` request `n ≥ 0` the call `duMalloc(n)`
returns and the same holds of the resulting state, whether the call fails, splits, or
returns a block without splitting. -/
theorem C18_layout_preserved (s : State) (L : List Int) (fuel : Nat) (n : Int)
    (hlay : Layout s L) (hf : L.length < fuel) (h0 : 0 ≤ n) (h2 : n ≤ 2147483647) :
    ∃ s1 r L1, duMalloc fuel s n = some (s1, r) ∧ Layout s1 L1 ∧
      L1.length = L.length := by
  have hcases := neededBytes_cases_zero n h0 h2
  have hlo := neededBytes_lower n
  have hH : sizeofHeader = 16 := rfl
  rcases first_fit_split s (neededBytes n) L with hall | ⟨pre, c, post, hLeq, hpre, hc⟩
  · exact ⟨s, none, L, duMalloc_no_fit s L fuel n hlay.1 hf hall, hlay, rfl⟩
  · subst hLeq
    have hf2 : pre.length < fuel := by
      simp only [List.length_append, List.length_cons] at hf
      omega
    have hm := duMalloc_fit s pre post c fuel n hlay.1 hf2 hpre hc
    have hcs := (layout_sizes s _ hlay).2 c (by simp)
    by_cases htest : toULong (toULong (neededBytes n) + sizeofHeader) <
        toULong (s.heap c).size
    · rw [if_pos htest] at hm
      have ht := (split_test_iff_zero _ _ hcs.1 (by omega)
        (by rcases hcases with h | h
            · exact Or.inl ⟨by omega, h.2⟩
            · exact Or.inr h) hlo).mp htest
      refine ⟨_, _, pre ++ (c + neededBytes n) :: post, hm,
        layout_splitBlock s pre post c (neededBytes n) hlay
          (by rcases hcases with h | h <;> omega) ht.2, ?_⟩
      simp only [List.length_append, List.length_cons]
    · rw [if_neg htest] at hm
      exact ⟨s, _, pre ++ c :: post, hm, hlay, rfl⟩

/-- C18 at `duInitMalloc(); duMalloc(8)`. -/
theorem C18_layout_preserved_witness :
    ∃ s1 r L1, duMalloc 2 (duInitMalloc bootState) 8 = some (s1, r) ∧ Layout s1 L1 ∧
      L1.length = [(0 : Int)].length :=
  C18_layout_preserved (duInitMalloc bootState) [0] 2 8
    ⟨⟨rfl, rfl⟩, List.chain'_singleton 0, List.chain'_singleton 0,
      (by unfold InArena; decide)⟩
    (by decide) (by decide) (by decide)

/-- C19 (footprint conservation), at a state with a finite, strictly ascending free
list whose blocks overlap: in `overlapState` (free list `0 -> 24`, footprints summing
to 1140) `duMalloc(8)` splits the block at offset 0 and returns offset 16, and after
`duFree(16)` the free list `0 -> 24 -> 24 -> ...` is cyclic: the walk over it does
not end and no sum of footprints exists (the footprints of the two nodes it visits
add up to 1024). -/
theorem C19_overlap_breaks_conservation :
    ∃ s1 s2 : State,
      isList overlapState overlapState.freeListHead [0, 24] ∧
      Ascending [0, 24] ∧
      freeFootprint 3 overlapState = some 1140 ∧
      neededBytes 8 + sizeofHeader < (overlapState.heap 0).size ∧
      duMalloc 3 overlapState 8 = some (s1, some 16) ∧
      duFree 3 s1 16 = some s2 ∧
      s2.freeListHead = some 0 ∧ (s2.heap 0).next = some 24 ∧
      (s2.heap 24).next = some 24 ∧
      sizeofHeader + (s2.heap 0).size + (sizeofHeader + (s2.heap 24).size) = 1024 ∧
      (∀ fuel : Nat, freeFootprint fuel s2 = none) ∧
      (∀ L : List Int, ¬ isList s2 s2.freeListHead L) := by
  have hcyc : ∀ (s : State), s.freeListHead = some 0 → (s.heap 0).next = some 24 →
      (s.heap 24).next = some 24 →
      (∀ fuel : Nat, freeFootprint fuel s = none) ∧
        (∀ L : List Int, ¬ isList s s.freeListHead L) := by
    intro s hh h0 h24
    refine ⟨?_, ?_⟩
    · intro fuel
      unfold freeFootprint duMemoryDump
      rw [hh]
      cases fuel with
      | zero => rfl
      | succ k => simp [dumpLoop, h0, dumpLoop_self_loop s 24 h24 k]
    · intro L hL
      unfold isList at hL
      rw [hh] at hL
      cases L with
      | nil => cases hL
      | cons b L =>
        obtain ⟨hb, hrest⟩ := hL
        have hb0 : (0 : Int) = b := Option.some.inj hb
        subst hb0
        rw [h0] at hrest
        exact not_isSeg_self_loop s 24 h24 L hrest
  refine ⟨_, _, ⟨rfl, rfl, rfl⟩, ?_, rfl, by decide, rfl, rfl, rfl, rfl, rfl, rfl, ?_⟩
  · exact List.chain'_cons.mpr ⟨by decide, List.chain'_singleton 24⟩
  · exact hcyc _ rfl rfl rfl

/-- C19 (footprint conservation), amended to states that satisfy the layout invariant
(finite, strictly ascending free list, footprints with non-negative sizes that do not
overlap and lie inside the arena): for every `int` request `n ≥ 1` for which
`duMalloc(n)` returns `p` after taking the split branch on the found block of size
`S` (the test of line 64 holds), the following `duFree(p)` returns and the sum over
the free-list nodes of `H + size` is the sum before the `duMalloc`; the split
satisfies `H + S = (H + roundUp8(n)) + (H + (S - neededBytes))`. -/
theorem C19_footprint_conservation (s : State) (L : List Int) (fuel : Nat) (n : Int)
    (s1 : State) (p : Int)
    (hlay : Layout s L) (hf : L.length + 1 < fuel)
    (h1 : 1 ≤ n) (h2 : n ≤ 2147483647)
    (hm : duMalloc fuel s n = some (s1, some p))
    (htest : toULong (toULong (neededBytes n) + sizeofHeader) <
      toULong (s.heap (p - sizeofHeader)).size) :
    (∃ s2 t, duFree fuel s1 p = some s2 ∧ freeFootprint fuel s = some t ∧
      freeFootprint fuel s2 = some t) ∧
    sizeofHeader + (s.heap (p - sizeofHeader)).size =
      (sizeofHeader + roundUp8 n) +
        (sizeofHeader + ((s.heap (p - sizeofHeader)).size - neededBytes n)) := by
  obtain ⟨h2b, hsplit⟩ :=
    split_request_in_range s L fuel n s1 p hlay (by omega) h1 h2 hm htest
  have hint := (layout_sizes s L hlay).1
  obtain ⟨hL, hasc, hfp, _⟩ := hlay
  have hN := neededBytes_eq n (by omega) h2b
  refine ⟨?_, by rw [hN]; omega⟩
  obtain ⟨pre, post, c, s2, hLeq, _, hfree, hL2, hrest, hc, hnew⟩ :=
    round_trip_shape s L fuel n s1 p hL hasc hfp hint hf h1 h2b hm hsplit
  subst hLeq
  have hlen2 : (pre ++ c :: (c + neededBytes n) :: post).length < fuel := by
    simp only [List.length_append, List.length_cons] at hf
    simp only [List.length_append, List.length_cons]
    omega
  refine ⟨s2, _, hfree, freeFootprint_of_isList s _ fuel hL (by omega), ?_⟩
  rw [freeFootprint_of_isList s2 _ fuel hL2 hlen2]
  congr 1
  have hmpre : pre.map (fun a => sizeofHeader + (s2.heap a).size) =
      pre.map (fun a => sizeofHeader + (s.heap a).size) := by
    refine List.map_congr_left ?_
    intro a ha
    simp only [hrest a (List.mem_append_left _ ha)]
  have hmpost : post.map (fun a => sizeofHeader + (s2.heap a).size) =
      post.map (fun a => sizeofHeader + (s.heap a).size) := by
    refine List.map_congr_left ?_
    intro a ha
    simp only [hrest a (List.mem_append_right _ ha)]
  simp only [List.map_append, List.map_cons, List.sum_append, List.sum_cons, hmpre, hmpost,
    hc, hnew]
  omega

/-- The amended C19 at `duInitMalloc(); p = duMalloc(8); duFree(p)`. -/
theorem C19_footprint_conservation_witness :
    (∃ s2 t, duFree 3 (splitBlock (duInitMalloc bootState) 0 none 24) 16 = some s2 ∧
      freeFootprint 3 (duInitMalloc bootState) = some t ∧
      freeFootprint 3 s2 = some t) ∧
    sizeofHeader + ((duInitMalloc bootState).heap (16 - sizeofHeader)).size =
      (sizeofHeader + roundUp8 8) +
        (sizeofHeader +
          (((duInitMalloc bootState).heap (16 - sizeofHeader)).size - neededBytes 8)) :=
  C19_footprint_conservation (duInitMalloc bootState) [0] 3 8
    (splitBlock (duInitMalloc bootState) 0 none 24) 16
    ⟨⟨rfl, rfl⟩, List.chain'_singleton 0, List.chain'_singleton 0,
      (by unfold InArena; decide)⟩
    (by decide) (by decide) (by decide) rfl (by decide)

end DuMalloc
